import Mathlib

/-!
# DialUp — verification of the symbol codec, error correction, framing,
# fragmentation, routing and signal-classifier components

Shallow embedding of the JavaScript sources of the `dialup` repository.
Colors are modelled by their palette index (0–7): the palette `COLORS`
array is a bijection between the eight hex strings and the indices, so a
color hex string is represented by its index, a non-palette string by any
number ≥ 8.  The special signals are the palette indices of the
corresponding hex strings:
`START_SIGNAL = '#FF00FF'` is `COLORS[4]`, `END_SIGNAL = '#0000FF'` is
`COLORS[2]`, `SYNC_SIGNAL = '#FFFFFF'` is `COLORS[6]`.

Binary strings are modelled as `List Bool` (most significant bit first),
text as the list of its character code points (`List ℕ`).
-/

set_option maxRecDepth 4000

namespace DialUp

/-- Palette index of `START_SIGNAL` (`'#FF00FF'`, magenta, `COLORS[4]`). -/
def START_SIGNAL : ℕ := 4

/-- Palette index of `END_SIGNAL` (`'#0000FF'`, blue, `COLORS[2]`). -/
def END_SIGNAL : ℕ := 2

/-- Palette index of `SYNC_SIGNAL` (`'#FFFFFF'`, white, `COLORS[6]`). -/
def SYNC_SIGNAL : ℕ := 6

/-- `COLOR_BITS = 3`: three bits per color, eight colors. -/
def COLOR_BITS : ℕ := 3

/-- Binary digits of `n`, most significant first, with `fuel` bounding the
recursion depth (structural recursion so that concrete values reduce in the
kernel; `fuel ≥ n` always suffices).  Mirrors `n.toString(2)` for `n > 0`. -/
def natBitsGo : ℕ → ℕ → List Bool
  | 0, _ => []
  | _, 0 => []
  | fuel + 1, n => natBitsGo fuel (n / 2) ++ [n % 2 == 1]

/-- Binary digits of `n`, most significant first; `0` is the single digit
`"0"`, as produced by JavaScript `n.toString(2)`. -/
def natBinaryDigits (n : ℕ) : List Bool :=
  if n = 0 then [false] else natBitsGo n n

/-- `padStart(width, '0')` on a binary string. -/
def padStartZero (l : List Bool) (width : ℕ) : List Bool :=
  List.replicate (width - l.length) false ++ l

/-- `padEnd(width, '0')` on a binary string. -/
def padEndZero (l : List Bool) (width : ℕ) : List Bool :=
  l ++ List.replicate (width - l.length) false

/-- `char.charCodeAt(0).toString(2).padStart(8, '0')` for a code point. -/
def charBits (c : ℕ) : List Bool :=
  padStartZero (natBinaryDigits c) 8

/-- `textToBinary(text)`: every character contributes its code point's
binary digits padded on the left to (at least) 8 bits. -/
def textToBinary (text : List ℕ) : List Bool :=
  (text.map charBits).flatten

/-- `parseInt(chunk, 2)`: most-significant-bit-first binary value. -/
def bitsToNat (l : List Bool) : ℕ :=
  l.foldl (fun a b => 2 * a + (if b then 1 else 0)) 0

/-- `binaryToColorIndexes(binary)`: chunks of `COLOR_BITS = 3` bits, the
final chunk right-padded with `'0'` (`padEnd`). -/
def binaryToColorIndexes : List Bool → List ℕ
  | [] => []
  | [a] => [bitsToNat [a, false, false]]
  | [a, b] => [bitsToNat [a, b, false]]
  | a :: b :: c :: rest => bitsToNat [a, b, c] :: binaryToColorIndexes rest

/-- `calculateChecksum(colorIndexes)`: sum of the indices mod 8. -/
def calculateChecksum (colorIndexes : List ℕ) : ℕ :=
  (colorIndexes.foldl (· + ·) 0) % 8

/-- `encodeText(text)` (encoder module): `[START, SYNC, data…, checksum,
SYNC, END]`; `colorIndexes.map(i => COLORS[i])` is the identity in the
index model. -/
def encodeText (text : List ℕ) : List ℕ :=
  let binary := textToBinary text
  let colorIndexes := binaryToColorIndexes binary
  let checksum := calculateChecksum colorIndexes
  [START_SIGNAL, SYNC_SIGNAL] ++ colorIndexes ++ [checksum, SYNC_SIGNAL, END_SIGNAL]

/-- `createMetadataHeader(text)`: the message length as an 8-bit binary
string, converted to color indexes. -/
def createMetadataHeader (text : List ℕ) : List ℕ :=
  binaryToColorIndexes (padStartZero (natBinaryDigits text.length) 8)

/-- `encode(text)`: `[START_SIGNAL, ...metadataHeader, SYNC_SIGNAL,
...encodeText(text).slice(1)]`; throws (here `none`) on an empty message. -/
def encode (text : List ℕ) : Option (List ℕ) :=
  if text.length = 0 then none
  else some ([START_SIGNAL] ++ createMetadataHeader text ++ [SYNC_SIGNAL]
    ++ (encodeText text).drop 1)

/-- `colorToIndex(color)` = `COLORS.indexOf(color)`: the index itself for a
palette color, `-1` for anything else. -/
def colorToIndex (color : ℕ) : ℤ :=
  if color < 8 then (color : ℤ) else -1

/-- `colorIndexesToBinary(colorIndexes)`:
`index.toString(2).padStart(COLOR_BITS, '0')` joined.  For palette indices
(0–7, the only values a symbol sequence contains) this is the exact
JavaScript behaviour; a negative index would stringify with a minus sign,
which has no `List Bool` counterpart, so it is clamped through `toNat`. -/
def colorIndexesToBinary (colorIndexes : List ℤ) : List Bool :=
  (colorIndexes.map (fun i => padStartZero (natBinaryDigits i.toNat) COLOR_BITS)).flatten

/-- `binaryToText(binary)` (decoder module): chunks of 8 bits, the final
chunk right-padded with `'0'`, each parsed as a byte. -/
def binaryToText : List Bool → List ℕ
  | a :: b :: c :: d :: e :: f :: g :: h :: rest =>
      bitsToNat [a, b, c, d, e, f, g, h] :: binaryToText rest
  | [] => []
  | l => [bitsToNat (padEndZero l 8)]

/-- `Array.prototype.indexOf(a, fromIdx)` for `fromIdx ≥ 0`: the first
index `≥ fromIdx` holding `a`. -/
def jsIndexOf (a : ℕ) (l : List ℕ) (fromIdx : ℕ) : Option ℕ :=
  ((l.drop fromIdx).findIdx? (· = a)).map (· + fromIdx)

/-- `Array.prototype.lastIndexOf(a, fromIdx)`: a negative `fromIdx` counts
from the end (`fromIdx + length`); if that is still negative the array is
not searched; otherwise the last index `≤ min fromIdx (length - 1)`
holding `a`. -/
def jsLastIndexOf (a : ℕ) (l : List ℕ) (fromIdx : ℤ) : Option ℕ :=
  let eff : ℤ := if fromIdx < 0 then fromIdx + l.length else min fromIdx ((l.length : ℤ) - 1)
  if eff < 0 then none
  else
    let n := eff.toNat + 1
    (((l.take n).reverse.findIdx? (· = a)).map (fun j => n - 1 - j))

/-- `extractMessageLength(colorSequence)`: metadata colors between the
first `START_SIGNAL` and the first `SYNC_SIGNAL` after it; the first 8
bits of their binary form give the expected length. -/
def extractMessageLength (colorSequence : List ℕ) : Option ℕ :=
  match jsIndexOf START_SIGNAL colorSequence 0 with
  | none => none
  | some startIndex =>
    match jsIndexOf SYNC_SIGNAL colorSequence (startIndex + 1) with
    | none => none
    | some syncIndex =>
      let metadataColors := (colorSequence.take syncIndex).drop (startIndex + 1)
      if metadataColors.length = 0 then none
      else
        let metadataIndexes := metadataColors.map colorToIndex
        let metadataBinary := colorIndexesToBinary metadataIndexes
        some (bitsToNat (metadataBinary.take 8))

/-- The distinct `throw` sites of `decode(colorSequence)`. -/
inductive DecodeError where
  | tooShort
  | noStart
  | noEnd
  | noSync
  | noFinalSync
  | checksumFailed
deriving DecidableEq

/-- The object returned by a successful `decode`. -/
structure DecodeResult where
  text : List ℕ
  expectedLength : Option ℕ
deriving DecidableEq

/-- `verifyChecksum(colorIndexes, receivedChecksum)`: the sum of the
indices mod 8 (JavaScript `%` truncates toward zero, `Int.tmod`) must
equal the received checksum. -/
def verifyChecksum (colorIndexes : List ℤ) (receivedChecksum : ℤ) : Bool :=
  Int.tmod (colorIndexes.foldl (· + ·) 0) 8 == receivedChecksum

/-- `dataColors.pop()` then `colorToIndex(checksumColor)`: popping an
empty array yields `undefined`, and `COLORS.indexOf(undefined)` is `-1`. -/
def popChecksumIndex (dataColors : List ℕ) : ℤ :=
  match dataColors.getLast? with
  | some c => colorToIndex c
  | none => -1

/-- `decode(colorSequence)` of the decoder module. -/
def decode (colorSequence : List ℕ) : Except DecodeError DecodeResult :=
  if colorSequence.length < 5 then .error .tooShort
  else
    match jsIndexOf START_SIGNAL colorSequence 0 with
    | none => .error .noStart
    | some startIndex =>
      match jsLastIndexOf END_SIGNAL colorSequence ((colorSequence.length : ℤ) - 1) with
      | none => .error .noEnd
      | some endIndex =>
        let expectedLength := extractMessageLength colorSequence
        match jsIndexOf SYNC_SIGNAL colorSequence (startIndex + 1) with
        | none => .error .noSync
        | some syncIndex =>
          match jsLastIndexOf SYNC_SIGNAL colorSequence ((endIndex : ℤ) - 1) with
          | none => .error .noFinalSync
          | some lastSyncIndex =>
            if verifyChecksum
                (((colorSequence.take lastSyncIndex).drop (syncIndex + 1)).dropLast.map
                  colorToIndex)
                (popChecksumIndex ((colorSequence.take lastSyncIndex).drop (syncIndex + 1)))
                = false then
              .error .checksumFailed
            else
              .ok ⟨binaryToText (colorIndexesToBinary
                    (((colorSequence.take lastSyncIndex).drop (syncIndex + 1)).dropLast.map
                      colorToIndex)),
                  expectedLength⟩

/-- The `DecodingState` threaded through `processReceivedColor`. -/
structure DecodingState where
  collecting : Bool
  colors : List ℕ
  complete : Bool
  message : Option DecodeResult
  error : Option DecodeError
deriving DecidableEq

/-- `processReceivedColor(state, color)` of the decoder module: START
restarts collection, END triggers `decode`, every other color received
while collecting is appended to the buffer. -/
def processReceivedColor (state : Option DecodingState) (color : ℕ) : DecodingState :=
  let s := state.getD ⟨false, [], false, none, none⟩
  if color = START_SIGNAL then
    ⟨true, [color], false, none, none⟩
  else if s.collecting then
    let updatedColors := s.colors ++ [color]
    if color = END_SIGNAL then
      match decode updatedColors with
      | .ok result => ⟨false, updatedColors, true, some result, none⟩
      | .error err => ⟨false, updatedColors, true, none, some err⟩
    else { s with colors := updatedColors }
  else s

/-- C1.  The claim `decode(encode(text)).text == text` fails on the code:
`encode` places a second `SYNC_SIGNAL` in front of the data region
(`encodeText` already starts with `START, SYNC` and only the `START` is
sliced off), so the decoder's data slice contains a stray index 6 and the
checksum comparison fails.  Witnessed here on the text `"Hi"`
(code points `[72, 105]`): `decode(encode("Hi"))` throws the checksum
error instead of returning `"Hi"`. -/
theorem c1_decode_encode_hi_throws_checksum :
    encode [72, 105] = some [4, 0, 0, 4, 6, 6, 2, 2, 0, 6, 4, 4, 2, 6, 2] ∧
    decode [4, 0, 0, 4, 6, 6, 2, 2, 0, 6, 4, 4, 2, 6, 2] =
      Except.error DecodeError.checksumFailed := by
  constructor
  · rfl
  · rfl

/-- C2.  The claim that `encode` produces exactly
`START, metadata(3), SYNC, data…, checksum, SYNC, END` fails: for the
text `"A"` (code point `[65]`, metadata `[0,0,2]`, data `[2,0,2]`,
checksum `4`) the code emits two consecutive `SYNC_SIGNAL`s between the
metadata and the data. -/
theorem c2_encode_frame_has_double_sync :
    encode [65] =
      some ([START_SIGNAL] ++ [0, 0, 2] ++ [SYNC_SIGNAL, SYNC_SIGNAL]
        ++ [2, 0, 2] ++ [4] ++ [SYNC_SIGNAL, END_SIGNAL]) := by
  rfl

/-- The checksum test of `decode`, phrased on the same extracted data
region the code uses (all index searches as in the code). -/
def decodeChecksumMismatch (cs : List ℕ) : Prop :=
  let startIndex := (jsIndexOf START_SIGNAL cs 0).getD 0
  let endIndex := (jsLastIndexOf END_SIGNAL cs ((cs.length : ℤ) - 1)).getD 0
  let syncIndex := (jsIndexOf SYNC_SIGNAL cs (startIndex + 1)).getD 0
  let lastSyncIndex := (jsLastIndexOf SYNC_SIGNAL cs ((endIndex : ℤ) - 1)).getD 0
  verifyChecksum
    (((cs.take lastSyncIndex).drop (syncIndex + 1)).dropLast.map colorToIndex)
    (popChecksumIndex ((cs.take lastSyncIndex).drop (syncIndex + 1))) = false

/-- The exact set of circumstances in which `decode` throws: too short, no
START, no END, no SYNC strictly after the first START, failure of the
backwards SYNC search (which looks at positions `≤ lastEnd - 1`, except
that when the last END sits at position 0 the JavaScript `lastIndexOf`
wraps its `fromIndex` of `-1` to the array end and searches the whole
sequence), or a checksum mismatch on the extracted data region. -/
def decodeThrowCondition (cs : List ℕ) : Prop :=
  cs.length < 5
  ∨ START_SIGNAL ∉ cs
  ∨ END_SIGNAL ∉ cs
  ∨ SYNC_SIGNAL ∉ cs.drop ((jsIndexOf START_SIGNAL cs 0).getD 0 + 1)
  ∨ (let endIndex := (jsLastIndexOf END_SIGNAL cs ((cs.length : ℤ) - 1)).getD 0
     if endIndex = 0 then SYNC_SIGNAL ∉ cs else SYNC_SIGNAL ∉ cs.take endIndex)
  ∨ decodeChecksumMismatch cs

/-- `jsIndexOf` finds nothing exactly when the element is absent from the
searched suffix. -/
theorem jsIndexOf_eq_none_iff {a : ℕ} {l : List ℕ} {f : ℕ} :
    jsIndexOf a l f = none ↔ a ∉ l.drop f := by
  simp only [jsIndexOf, Option.map_eq_none', List.findIdx?_eq_none_iff,
    decide_eq_false_iff_not]
  constructor
  · intro h hmem
    exact h a hmem rfl
  · intro h x hx hxa
    exact h (hxa ▸ hx)

/-- A successful `jsIndexOf` implies membership in the searched suffix. -/
theorem jsIndexOf_mem {a : ℕ} {l : List ℕ} {f i : ℕ}
    (h : jsIndexOf a l f = some i) : a ∈ l.drop f := by
  by_contra hmem
  rw [← jsIndexOf_eq_none_iff] at hmem
  rw [hmem] at h
  exact Option.noConfusion h

/-- `jsLastIndexOf` with a non-negative `fromIndex` finds nothing exactly
when the element is absent from the searched prefix. -/
theorem jsLastIndexOf_eq_none_iff {a : ℕ} {l : List ℕ} {f : ℤ} (hf : 0 ≤ f) :
    jsLastIndexOf a l f = none ↔
      a ∉ l.take ((min f ((l.length : ℤ) - 1)).toNat + 1) := by
  unfold jsLastIndexOf
  simp only [not_lt.2 hf, if_false]
  split
  · rename_i h
    have hlen : l.length = 0 := by
      rcases Nat.eq_zero_or_pos l.length with h0 | h0
      · exact h0
      · exfalso
        have : (0 : ℤ) ≤ min f ((l.length : ℤ) - 1) := le_min hf (by omega)
        omega
    have : l = [] := List.length_eq_zero.mp hlen
    subst this
    simp
  · simp only [Option.map_eq_none', List.findIdx?_eq_none_iff,
      decide_eq_false_iff_not]
    constructor
    · intro h hmem
      exact h a (List.mem_reverse.mpr hmem) rfl
    · intro h x hx hxa
      exact h (hxa ▸ List.mem_reverse.mp hx)

/-- A successful `jsLastIndexOf` (non-negative `fromIndex`) implies
membership in the searched prefix. -/
theorem jsLastIndexOf_mem {a : ℕ} {l : List ℕ} {f : ℤ} {i : ℕ} (hf : 0 ≤ f)
    (h : jsLastIndexOf a l f = some i) :
    a ∈ l.take ((min f ((l.length : ℤ) - 1)).toNat + 1) := by
  by_contra hmem
  rw [← jsLastIndexOf_eq_none_iff hf] at hmem
  rw [hmem] at h
  exact Option.noConfusion h

/-- `jsLastIndexOf` with a negative `fromIndex` that wraps to a valid
position searches the prefix up to the wrapped position. -/
theorem jsLastIndexOf_eq_none_iff_of_neg {a : ℕ} {l : List ℕ} {f : ℤ}
    (hf : f < 0) (hf2 : 0 ≤ f + l.length) :
    jsLastIndexOf a l f = none ↔ a ∉ l.take ((f + l.length).toNat + 1) := by
  unfold jsLastIndexOf
  simp only [hf, if_true, not_lt.2 hf2, if_false]
  simp only [Option.map_eq_none', List.findIdx?_eq_none_iff,
    decide_eq_false_iff_not]
  constructor
  · intro h hmem
    exact h a (List.mem_reverse.mpr hmem) rfl
  · intro h x hx hxa
    exact h (hxa ▸ List.mem_reverse.mp hx)

/-- Any index returned by `jsLastIndexOf` with non-negative `fromIndex`
is at most the effective search bound. -/
theorem jsLastIndexOf_le {a : ℕ} {l : List ℕ} {f : ℤ} {i : ℕ} (hf : 0 ≤ f)
    (h : jsLastIndexOf a l f = some i) :
    i ≤ (min f ((l.length : ℤ) - 1)).toNat := by
  unfold jsLastIndexOf at h
  simp only [not_lt.2 hf, if_false] at h
  split at h
  · exact Option.noConfusion h
  · simp only [Option.map_eq_some'] at h
    obtain ⟨j, _, hj⟩ := h
    omega

/-- C3 counterexample.  The claim predicts a framing error whenever no
`SYNC_SIGNAL` occurs before the END marker; on `[2, 4, 6, 0, 6]` the last
`END_SIGNAL` sits at position 0, so no SYNC precedes it, yet `decode`
succeeds (returning the empty text): JavaScript `lastIndexOf` wraps the
`fromIndex` of `-1` to the end of the array. -/
theorem c3_sync_before_end_not_required :
    decode [2, 4, 6, 0, 6] = Except.ok ⟨[], none⟩ ∧
    jsLastIndexOf END_SIGNAL [2, 4, 6, 0, 6] (((5 : ℕ) : ℤ) - 1) = some 0 ∧
    SYNC_SIGNAL ∉ ([2, 4, 6, 0, 6] : List ℕ).take 0 :=
  ⟨rfl, rfl, by decide⟩

/-- C3 amended.  `decode` throws exactly when the sequence is shorter
than 5 symbols, contains no START, no END, no SYNC strictly after the
first START, the backwards SYNC search fails (searching positions before
the last END, wrapping to the whole sequence when that END is at position
0), or the checksum of the extracted data region mismatches; a mismatch
between the decoded length and the metadata length is never an error. -/
theorem c3_decode_throws_iff (cs : List ℕ) :
    (∃ e, decode cs = Except.error e) ↔ decodeThrowCondition cs := by
  by_cases h5 : cs.length < 5
  · exact iff_of_true ⟨.tooShort, by simp only [decode, if_pos h5]⟩ (Or.inl h5)
  · rcases h1 : jsIndexOf START_SIGNAL cs 0 with _ | startIndex
    · have hs : START_SIGNAL ∉ cs := by
        have := jsIndexOf_eq_none_iff.mp h1
        simpa using this
      exact iff_of_true ⟨.noStart, by simp only [decode, if_neg h5, h1]⟩
        (Or.inr (Or.inl hs))
    · have hlenf : (0 : ℤ) ≤ (cs.length : ℤ) - 1 := by omega
      rcases h2 : jsLastIndexOf END_SIGNAL cs ((cs.length : ℤ) - 1) with _ | endIndex
      · have he : END_SIGNAL ∉ cs := by
          have := (jsLastIndexOf_eq_none_iff hlenf).mp h2
          rw [min_self] at this
          have htake : ((cs.length : ℤ) - 1).toNat + 1 = cs.length := by omega
          rwa [htake, List.take_length] at this
        exact iff_of_true ⟨.noEnd, by simp only [decode, if_neg h5, h1, h2]⟩
          (Or.inr (Or.inr (Or.inl he)))
      · have hEndLe : endIndex ≤ cs.length - 1 := by
          have := jsLastIndexOf_le hlenf h2
          rw [min_self] at this
          omega
        rcases h3 : jsIndexOf SYNC_SIGNAL cs (startIndex + 1) with _ | syncIndex
        · have hsy : SYNC_SIGNAL ∉ cs.drop ((jsIndexOf START_SIGNAL cs 0).getD 0 + 1) := by
            rw [h1, Option.getD_some]
            exact jsIndexOf_eq_none_iff.mp h3
          exact iff_of_true ⟨.noSync, by simp only [decode, if_neg h5, h1, h2, h3]⟩
            (Or.inr (Or.inr (Or.inr (Or.inl hsy))))
        · rcases h4 : jsLastIndexOf SYNC_SIGNAL cs ((endIndex : ℤ) - 1) with _ | lastSyncIndex
          · have hdec : decode cs = Except.error DecodeError.noFinalSync := by
              simp only [decode, if_neg h5, h1, h2, h3, h4]
            refine iff_of_true ⟨.noFinalSync, hdec⟩
              (Or.inr (Or.inr (Or.inr (Or.inr (Or.inl ?_)))))
            rw [h2, Option.getD_some]
            rcases Nat.eq_zero_or_pos endIndex with hz | hpos
            · subst hz
              rw [if_pos rfl]
              have hneg : ((0 : ℕ) : ℤ) - 1 < 0 := by norm_num
              have hneg2 : (0 : ℤ) ≤ ((0 : ℕ) : ℤ) - 1 + cs.length := by
                push_cast; omega
              have := (jsLastIndexOf_eq_none_iff_of_neg hneg hneg2).mp h4
              have htake : (((0 : ℕ) : ℤ) - 1 + cs.length).toNat + 1 = cs.length := by
                push_cast; omega
              rwa [htake, List.take_length] at this
            · rw [if_neg (Nat.pos_iff_ne_zero.mp hpos)]
              have hf : (0 : ℤ) ≤ (endIndex : ℤ) - 1 := by omega
              have := (jsLastIndexOf_eq_none_iff hf).mp h4
              have hmin : min ((endIndex : ℤ) - 1) ((cs.length : ℤ) - 1)
                  = (endIndex : ℤ) - 1 := by
                apply min_eq_left; omega
              rw [hmin] at this
              have htake : ((endIndex : ℤ) - 1).toNat + 1 = endIndex := by omega
              rwa [htake] at this
          · by_cases hck :
              verifyChecksum
                (((cs.take lastSyncIndex).drop (syncIndex + 1)).dropLast.map colorToIndex)
                (popChecksumIndex ((cs.take lastSyncIndex).drop (syncIndex + 1))) = false
            · have hdec : decode cs = Except.error DecodeError.checksumFailed := by
                simp only [decode, if_neg h5, h1, h2, h3, h4]
                exact if_pos hck
              refine iff_of_true ⟨.checksumFailed, hdec⟩
                (Or.inr (Or.inr (Or.inr (Or.inr (Or.inr ?_)))))
              simpa only [decodeChecksumMismatch, h1, h2, h3, h4,
                Option.getD_some] using hck
            · have hdec : decode cs = Except.ok
                  ⟨binaryToText (colorIndexesToBinary
                    (((cs.take lastSyncIndex).drop (syncIndex + 1)).dropLast.map
                      colorToIndex)),
                    extractMessageLength cs⟩ := by
                simp only [decode, if_neg h5, h1, h2, h3, h4]
                exact if_neg hck
              constructor
              · rintro ⟨e, he⟩
                rw [hdec] at he
                exact Except.noConfusion he
              · rintro (h | h | h | h | h | h)
                · exact absurd h h5
                · exact absurd (by simpa using jsIndexOf_mem h1) h
                · refine absurd ?_ h
                  have := jsLastIndexOf_mem hlenf h2
                  rw [min_self] at this
                  have htake : ((cs.length : ℤ) - 1).toNat + 1 = cs.length := by omega
                  rwa [htake, List.take_length] at this
                · rw [h1, Option.getD_some] at h
                  exact absurd (jsIndexOf_mem h3) h
                · rw [h2, Option.getD_some] at h
                  rcases Nat.eq_zero_or_pos endIndex with hz | hpos
                  · subst hz
                    rw [if_pos rfl] at h
                    exact absurd (List.drop_subset _ _ (jsIndexOf_mem h3)) h
                  · rw [if_neg (Nat.pos_iff_ne_zero.mp hpos)] at h
                    refine absurd ?_ h
                    have hf : (0 : ℤ) ≤ (endIndex : ℤ) - 1 := by omega
                    have := jsLastIndexOf_mem hf h4
                    have hmin : min ((endIndex : ℤ) - 1) ((cs.length : ℤ) - 1)
                        = (endIndex : ℤ) - 1 := by
                      apply min_eq_left; omega
                    rw [hmin] at this
                    have htake : ((endIndex : ℤ) - 1).toNat + 1 = endIndex := by omega
                    rwa [htake] at this
                · refine absurd ?_ hck
                  simpa only [decodeChecksumMismatch, h1, h2, h3, h4,
                    Option.getD_some] using h

/-- The result object of `ErrorCorrectionCodec.decode`. -/
structure EcResult where
  data : List ℕ
  errors : ℕ
  corrected : ℕ
  valid : Bool
deriving DecidableEq

/-- One round of `parity = (parity ^ (parity << 1)) & 0xFF` (all values
stay far below 2³¹, so JavaScript's 32-bit coercions are the identity). -/
def parityRound (p : ℕ) : ℕ :=
  (Nat.xor p (p <<< 1)) &&& 255

/-- `calculateParity(byte, strength)`: `strength` XOR-shift rounds. -/
def calculateParity (byte strength : ℕ) : ℕ :=
  parityRound^[strength] byte

/-- The loop body of `hammingDecode`: walk `(data byte, parity byte)`
pairs, collect the data bytes and count parity mismatches.  The
single-byte case is unreachable behind the even-length guard. -/
def hammingDecodeGo (strength : ℕ) : List ℕ → List ℕ × ℕ
  | dataByte :: parityByte :: rest =>
      let r := hammingDecodeGo strength rest
      (dataByte :: r.1,
        (if parityByte ≠ calculateParity dataByte strength then 1 else 0) + r.2)
  | [] => ([], 0)
  | [b] => ([b], 0)

/-- `hammingDecode(encoded)`: throws (`none`) on odd length; otherwise
returns the data bytes with the mismatch count as `errors`, and always
`corrected: 0`, `valid: true`. -/
def hammingDecode (strength : ℕ) (encoded : List ℕ) : Option EcResult :=
  if encoded.length % 2 ≠ 0 then none
  else some ⟨(hammingDecodeGo strength encoded).1, (hammingDecodeGo strength encoded).2, 0, true⟩

/-- `ToUint32` on an integral JavaScript number: its 32-bit pattern.
`%` on `ℤ` is `Int.emod`, non-negative for this modulus. -/
def toUint32 (z : ℤ) : ℕ :=
  (z % 4294967296).toNat

/-- `ToInt32` on an integral JavaScript number: the signed value with the
same 32-bit pattern. -/
def toInt32 (z : ℤ) : ℤ :=
  if z % 4294967296 < 2147483648 then z % 4294967296 else z % 4294967296 - 4294967296

/-- JavaScript `a & b`: bitwise AND of the 32-bit patterns, signed result. -/
def jsAnd (a b : ℤ) : ℤ :=
  toInt32 (((toUint32 a &&& toUint32 b : ℕ)) : ℤ)

/-- JavaScript `a ^ b`. -/
def jsXor (a b : ℤ) : ℤ :=
  toInt32 (((toUint32 a ^^^ toUint32 b : ℕ)) : ℤ)

/-- JavaScript `a | b`. -/
def jsOr (a b : ℤ) : ℤ :=
  toInt32 (((toUint32 a ||| toUint32 b : ℕ)) : ℤ)

/-- JavaScript `a << k`: the shift count is taken mod 32. -/
def jsShl (a : ℤ) (k : ℕ) : ℤ :=
  toInt32 (((toUint32 a) * 2 ^ (k % 32) : ℕ) : ℤ)

/-- JavaScript `a >> k` (sign-propagating): floor division of the signed
value by `2 ^ (k % 32)`. -/
def jsSar (a : ℤ) (k : ℕ) : ℤ :=
  Int.fdiv (toInt32 a) (2 ^ (k % 32))

/-- One step of the rolling checksum of `reedSolomonEncode`/`Decode`:
`checksum = ((checksum << 8) ^ byte) & 0xFFFFFFFF`, then the
`checksum > 0x80000000` reduction branch (`0x104C11DB7 = 4374732215`);
that comparison is against the signed value, which never exceeds
`2³¹ - 1`, so the branch is dead — kept verbatim nonetheless. -/
def rsChecksumStep (checksum : ℤ) (b : ℕ) : ℤ :=
  let c1 := jsAnd (jsXor (jsShl checksum 8) (b : ℤ)) 4294967295
  if c1 > 2147483648 then jsAnd (jsXor c1 4374732215) 4294967295 else c1

/-- `(checksum >> (i * 8)) & 0xFF`, the i-th stored checksum byte. -/
def rsByte (checksum : ℤ) (i : ℕ) : ℕ :=
  (jsAnd (jsSar checksum (i * 8)) 255).toNat

/-- `Math.floor`-style conversion of an array-index expression; the
values arising in the claims are integral and non-negative, where
JavaScript's `ToIntegerOrInfinity` truncation agrees with `⌊·⌋`. -/
def jsToIndex (q : ℚ) : ℕ :=
  (⌊q⌋).toNat

/-- The number of iterations of `for (let i = 0; i < bound; i++)`:
the count of naturals strictly below `bound`. -/
def jsLoopCount (q : ℚ) : ℕ :=
  (⌈q⌉).toNat

/-- `reedSolomonEncode(data)`: append
`checksumLength = min(32, data.length / 4 * strength)` bytes of the
rolling checksum. -/
def reedSolomonEncode (strength : ℕ) (data : List ℕ) : List ℕ :=
  let checksumLength : ℚ := min 32 ((data.length : ℚ) / 4 * strength)
  let checksum := data.foldl rsChecksumStep 0
  data ++ (List.range (jsLoopCount checksumLength)).map (fun i => rsByte checksum i)

/-- `reedSolomonDecode(encoded)`:
`checksumLength = min(32, (encoded.length / 5) * strength)`, recompute the
rolling checksum over the data prefix, reassemble the stored checksum with
`actual |= encoded[dataLength + i] << (i * 8)` and compare the 32-bit
values. -/
def reedSolomonDecode (strength : ℕ) (encoded : List ℕ) : EcResult :=
  let checksumLength : ℚ := min 32 ((encoded.length : ℚ) / 5 * strength)
  let dataLength : ℕ := jsToIndex ((encoded.length : ℚ) - checksumLength)
  let data := encoded.take dataLength
  let expectedChecksum := data.foldl rsChecksumStep 0
  let actualChecksum := (List.range (jsLoopCount checksumLength)).foldl
    (fun acc i => jsOr acc (jsShl ((encoded.getD (dataLength + i) 0 : ℕ) : ℤ) (i * 8))) 0
  let hasError : Bool := jsAnd expectedChecksum 4294967295 != jsAnd actualChecksum 4294967295
  ⟨data, if hasError then 1 else 0, 0, !hasError⟩

/-- The `mode` configuration of `createErrorCorrection`. -/
inductive EcMode where
  | noCorrection
  | hamming
  | reedSolomon
deriving DecidableEq

/-- `decode(encoded)` of the error-correction module: dispatch on the
configured mode (`'none'` is a passthrough). -/
def ecDecode (mode : EcMode) (strength : ℕ) (encoded : List ℕ) : Option EcResult :=
  match mode with
  | .hamming => hammingDecode strength encoded
  | .reedSolomon => some (reedSolomonDecode strength encoded)
  | .noCorrection => some ⟨encoded, 0, 0, true⟩

/-- C4.  In `'hamming'` mode, decoding any even-length byte array yields
`valid: true` and `corrected: 0`, no matter how many parity mismatches
were counted. -/
theorem c4_hamming_decode_always_valid (strength : ℕ) (encoded : List ℕ)
    (h : encoded.length % 2 = 0) :
    (ecDecode EcMode.hamming strength encoded).map (fun r => (r.valid, r.corrected))
      = some (true, 0) := by
  simp [ecDecode, hammingDecode, h]

/-- Witness for `c4_hamming_decode_always_valid` on a concrete array with
a genuine parity mismatch (`calculateParity 5 1 = 15 ≠ 7`). -/
theorem c4_hamming_decode_witness :
    (ecDecode EcMode.hamming 1 [5, 7]).map (fun r => (r.valid, r.corrected))
      = some (true, 0) :=
  c4_hamming_decode_always_valid 1 [5, 7] (by decide)

/-- The mutable state of the adaptive error-correction loop:
`config.strength` together with `errorStats`. -/
structure AdaptiveState where
  strength : ℕ
  detectedErrors : ℤ
  totalPackets : ℕ
  errorHistory : List Bool
deriving DecidableEq

/-- `getCurrentErrorRate()`: detected errors over the window length,
`0` for an empty window. -/
def getCurrentErrorRate (s : AdaptiveState) : ℚ :=
  if s.errorHistory.length = 0 then 0
  else (s.detectedErrors : ℚ) / s.errorHistory.length

/-- `adjustStrength()`: increment (cap 8) above rate 0.1, decrement
(floor 1, only from strength > 1) below rate 0.01, otherwise hold. -/
def adjustStrength (s : AdaptiveState) : AdaptiveState :=
  if getCurrentErrorRate s > 1 / 10 then
    { s with strength := min (s.strength + 1) 8 }
  else if getCurrentErrorRate s < 1 / 100 ∧ s.strength > 1 then
    { s with strength := max (s.strength - 1) 1 }
  else s

/-- The statistics part of `updateErrorStats(hasError)`: count the packet,
push the sample, trim the window to 100 entries (decrementing the error
counter when the shifted-out entry was an error). -/
def windowUpdate (s : AdaptiveState) (hasError : Bool) : AdaptiveState :=
  let s2 : AdaptiveState :=
    { s with totalPackets := s.totalPackets + 1,
             detectedErrors := s.detectedErrors + (if hasError then 1 else 0),
             errorHistory := s.errorHistory ++ [hasError] }
  if s2.errorHistory.length > 100 then
    { s2 with errorHistory := s2.errorHistory.tail,
              detectedErrors :=
                s2.detectedErrors - (if s2.errorHistory.head? = some true then 1 else 0) }
  else s2

/-- `updateErrorStats(hasError)` with `config.adaptive = true`: update the
window, then `adjustStrength()`.  Every decode call feeds exactly one
sample (`errorCount > 0` resp. `hasError`) through this function. -/
def updateErrorStats (s : AdaptiveState) (hasError : Bool) : AdaptiveState :=
  adjustStrength (windowUpdate s hasError)

/-- `P` holds of the windowed error rate after every decode call of the
run. -/
def ratesAll (P : ℚ → Prop) : AdaptiveState → List Bool → Prop
  | _, [] => True
  | s, b :: t =>
      P (getCurrentErrorRate (updateErrorStats s b)) ∧ ratesAll P (updateErrorStats s b) t

/-- `adjustStrength` touches only the strength, not the window, so it
leaves the error rate unchanged. -/
theorem adjustStrength_rate_eq (s : AdaptiveState) :
    getCurrentErrorRate (adjustStrength s) = getCurrentErrorRate s := by
  unfold adjustStrength
  split_ifs <;> rfl

/-- The statistics update leaves the strength unchanged. -/
theorem windowUpdate_strength (s : AdaptiveState) (b : Bool) :
    (windowUpdate s b).strength = s.strength := by
  simp only [windowUpdate]
  split_ifs <;> rfl

/-- Above the 0.1 threshold the strength is incremented (capped at 8). -/
theorem adjustStrength_of_high (s : AdaptiveState)
    (h : getCurrentErrorRate s > 1 / 10) :
    (adjustStrength s).strength = min (s.strength + 1) 8 := by
  unfold adjustStrength
  rw [if_pos h]

/-- Below the 0.01 threshold the strength does not increase. -/
theorem adjustStrength_of_low (s : AdaptiveState)
    (h : getCurrentErrorRate s < 1 / 100) :
    (adjustStrength s).strength ≤ s.strength := by
  unfold adjustStrength
  rw [if_neg (by intro hgt; linarith)]
  split_ifs with h2
  · show max (s.strength - 1) 1 ≤ s.strength
    omega
  · exact le_refl _

/-- Between the thresholds the strength is unchanged. -/
theorem adjustStrength_of_mid (s : AdaptiveState)
    (hhi : ¬getCurrentErrorRate s > 1 / 10)
    (hlo : ¬getCurrentErrorRate s < 1 / 100) :
    (adjustStrength s).strength = s.strength := by
  unfold adjustStrength
  rw [if_neg hhi, if_neg (fun hc => hlo hc.1)]

/-- `adjustStrength` keeps the strength inside `[1, 8]`. -/
theorem adjustStrength_bounds (s : AdaptiveState)
    (h1 : 1 ≤ s.strength) (h8 : s.strength ≤ 8) :
    1 ≤ (adjustStrength s).strength ∧ (adjustStrength s).strength ≤ 8 := by
  unfold adjustStrength
  split_ifs
  · constructor
    · show 1 ≤ min (s.strength + 1) 8
      omega
    · show min (s.strength + 1) 8 ≤ 8
      omega
  · constructor
    · show 1 ≤ max (s.strength - 1) 1
      omega
    · show max (s.strength - 1) 1 ≤ 8
      omega
  · exact ⟨h1, h8⟩

/-- C6.  Across any run of decode calls with the adaptive flag on, the
strength is non-decreasing while the windowed error rate stays above
0.1, non-increasing while it stays below 0.01, unchanged while it stays
in between, and always remains within `[1, 8]` when it starts there. -/
theorem c6_adaptive_strength (s : AdaptiveState) (l : List Bool)
    (h1 : 1 ≤ s.strength) (h8 : s.strength ≤ 8) :
    (ratesAll (fun r => r > 1 / 10) s l →
      s.strength ≤ (l.foldl updateErrorStats s).strength)
    ∧ (ratesAll (fun r => r < 1 / 100) s l →
      (l.foldl updateErrorStats s).strength ≤ s.strength)
    ∧ (ratesAll (fun r => 1 / 100 ≤ r ∧ r ≤ 1 / 10) s l →
      (l.foldl updateErrorStats s).strength = s.strength)
    ∧ 1 ≤ (l.foldl updateErrorStats s).strength
    ∧ (l.foldl updateErrorStats s).strength ≤ 8 := by
  induction l generalizing s with
  | nil => exact ⟨fun _ => le_refl _, fun _ => le_refl _, fun _ => rfl, h1, h8⟩
  | cons b t ih =>
    have hw1 : 1 ≤ (windowUpdate s b).strength := by
      rw [windowUpdate_strength]; exact h1
    have hw8 : (windowUpdate s b).strength ≤ 8 := by
      rw [windowUpdate_strength]; exact h8
    have hbounds := adjustStrength_bounds (windowUpdate s b) hw1 hw8
    have hrate : getCurrentErrorRate (updateErrorStats s b)
        = getCurrentErrorRate (windowUpdate s b) :=
      adjustStrength_rate_eq _
    obtain ⟨ih1, ih2, ih3, ih4, ih5⟩ := ih (updateErrorStats s b) hbounds.1 hbounds.2
    simp only [List.foldl_cons, ratesAll]
    refine ⟨?_, ?_, ?_, ih4, ih5⟩
    · rintro ⟨hP, hPs⟩
      refine le_trans ?_ (ih1 hPs)
      have := adjustStrength_of_high (windowUpdate s b) (hrate ▸ hP)
      unfold updateErrorStats
      rw [this, windowUpdate_strength]
      omega
    · rintro ⟨hP, hPs⟩
      refine le_trans (ih2 hPs) ?_
      have := adjustStrength_of_low (windowUpdate s b) (hrate ▸ hP)
      unfold updateErrorStats
      rw [windowUpdate_strength] at this
      exact this
    · rintro ⟨⟨hge, hle⟩, hPs⟩
      have hmid := adjustStrength_of_mid (windowUpdate s b)
        (by rw [← hrate]; exact not_lt.mpr hle)
        (by rw [← hrate]; exact not_lt.mpr hge)
      rw [windowUpdate_strength] at hmid
      rw [ih3 hPs]
      exact hmid

/-- Witness for `c6_adaptive_strength` on a one-call run from the initial
state (strength 1, empty window). -/
theorem c6_adaptive_strength_witness :
    (ratesAll (fun r => r > 1 / 10) ⟨1, 0, 0, []⟩ [true] →
      (⟨1, 0, 0, []⟩ : AdaptiveState).strength ≤
        (([true] : List Bool).foldl updateErrorStats ⟨1, 0, 0, []⟩).strength)
    ∧ (ratesAll (fun r => r < 1 / 100) ⟨1, 0, 0, []⟩ [true] →
      (([true] : List Bool).foldl updateErrorStats ⟨1, 0, 0, []⟩).strength ≤
        (⟨1, 0, 0, []⟩ : AdaptiveState).strength)
    ∧ (ratesAll (fun r => 1 / 100 ≤ r ∧ r ≤ 1 / 10) ⟨1, 0, 0, []⟩ [true] →
      (([true] : List Bool).foldl updateErrorStats ⟨1, 0, 0, []⟩).strength =
        (⟨1, 0, 0, []⟩ : AdaptiveState).strength)
    ∧ 1 ≤ (([true] : List Bool).foldl updateErrorStats ⟨1, 0, 0, []⟩).strength
    ∧ (([true] : List Bool).foldl updateErrorStats ⟨1, 0, 0, []⟩).strength ≤ 8 :=
  c6_adaptive_strength ⟨1, 0, 0, []⟩ [true] (by decide) (by decide)

/-- C5 counterexample.  The claim says a `SYNC_SIGNAL` received while
collecting leaves the buffer unchanged; in the code it is appended like
any other symbol. -/
theorem c5_sync_changes_buffer :
    (processReceivedColor (some ⟨true, [START_SIGNAL], false, none, none⟩)
      SYNC_SIGNAL).colors ≠ [START_SIGNAL] := by
  decide

/-- C5 amended.  While the state machine is collecting, a `SYNC_SIGNAL`
is appended to the `DecodingState` buffer exactly like any other
non-START, non-END symbol (no field other than the buffer changes). -/
theorem c5_sync_appended_while_collecting (s : DecodingState)
    (h : s.collecting = true) :
    processReceivedColor (some s) SYNC_SIGNAL = { s with colors := s.colors ++ [SYNC_SIGNAL] } := by
  simp only [processReceivedColor, Option.getD_some, SYNC_SIGNAL, START_SIGNAL, END_SIGNAL]
  norm_num [h]

/-- Witness for `c5_sync_appended_while_collecting` at a concrete
collecting state. -/
theorem c5_sync_appended_witness :
    processReceivedColor (some ⟨true, [4, 0], false, none, none⟩) SYNC_SIGNAL =
      { collecting := true, colors := [4, 0, 6], complete := false,
        message := none, error := none } :=
  c5_sync_appended_while_collecting ⟨true, [4, 0], false, none, none⟩ rfl

/-- A routing-table entry: `{nextHop, hopCount, timestamp}`. -/
structure Route where
  nextHop : ℕ
  hopCount : ℕ
  timestamp : ℤ
deriving DecidableEq

/-- `updateRoute(destination, nextHop, hopCount)` of the network manager
(peer ids as numbers, the table as a map `destination ↦ route`, `now` for
`Date.now()`): no route to self; otherwise overwrite when there is no
existing route, the new hop count is strictly smaller, or equal with the
existing route older than 5000 ms. -/
def updateRoute (selfId : ℕ) (routes : ℕ → Option Route)
    (destination nextHop hopCount : ℕ) (now : ℤ) : ℕ → Option Route :=
  if destination = selfId then routes
  else
    match routes destination with
    | none => Function.update routes destination (some ⟨nextHop, hopCount, now⟩)
    | some existingRoute =>
        if hopCount < existingRoute.hopCount ∨
            (hopCount = existingRoute.hopCount ∧ now - existingRoute.timestamp > 5000) then
          Function.update routes destination (some ⟨nextHop, hopCount, now⟩)
        else routes

/-- C8.  `updateRoute` replaces an existing route only when the new hop
count is strictly smaller, or equal with the stored route older than 5
seconds; in every other case the stored entry is untouched. -/
theorem c8_update_route_only_better (selfId : ℕ) (routes : ℕ → Option Route)
    (destination nextHop hopCount : ℕ) (now : ℤ) (r : Route)
    (h : routes destination = some r) :
    (updateRoute selfId routes destination nextHop hopCount now destination ≠ some r →
      (hopCount < r.hopCount ∨ (hopCount = r.hopCount ∧ now - r.timestamp > 5000)))
    ∧ (¬(hopCount < r.hopCount ∨ (hopCount = r.hopCount ∧ now - r.timestamp > 5000)) →
      updateRoute selfId routes destination nextHop hopCount now destination = some r) := by
  unfold updateRoute
  by_cases hself : destination = selfId
  · rw [if_pos hself]
    exact ⟨fun hne => absurd h hne, fun _ => h⟩
  · rw [if_neg hself]
    simp only [h]
    by_cases hcond : hopCount < r.hopCount ∨ (hopCount = r.hopCount ∧ now - r.timestamp > 5000)
    · rw [if_pos hcond]
      exact ⟨fun _ => hcond, fun hnc => absurd hcond hnc⟩
    · rw [if_neg hcond]
      exact ⟨fun hne => absurd h hne, fun _ => h⟩

/-- Witness for `c8_update_route_only_better`: an existing route with
equal hop count and a fresh timestamp is kept. -/
theorem c8_update_route_witness :
    ((updateRoute 0 (fun d => if d = 1 then some ⟨2, 3, 0⟩ else none) 1 5 3 1000) 1 ≠
        some ⟨2, 3, 0⟩ →
      (3 < (⟨2, 3, 0⟩ : Route).hopCount ∨
        (3 = (⟨2, 3, 0⟩ : Route).hopCount ∧ (1000 : ℤ) - (⟨2, 3, 0⟩ : Route).timestamp > 5000)))
    ∧ (¬(3 < (⟨2, 3, 0⟩ : Route).hopCount ∨
        (3 = (⟨2, 3, 0⟩ : Route).hopCount ∧ (1000 : ℤ) - (⟨2, 3, 0⟩ : Route).timestamp > 5000)) →
      (updateRoute 0 (fun d => if d = 1 then some ⟨2, 3, 0⟩ else none) 1 5 3 1000) 1 =
        some ⟨2, 3, 0⟩) :=
  c8_update_route_only_better 0 (fun d => if d = 1 then some ⟨2, 3, 0⟩ else none)
    1 5 3 1000 ⟨2, 3, 0⟩ (by decide)

/-- The RGB values of the eight palette colors (`COLORS` parsed by
`hexToRgb`, in palette order). -/
def PALETTE_RGB : List (ℤ × ℤ × ℤ) :=
  [(255, 0, 0), (0, 255, 0), (0, 0, 255), (255, 255, 0),
   (255, 0, 255), (0, 255, 255), (255, 255, 255), (0, 0, 0)]

/-- The square of `colorDistance(rgb1, rgb2)`.  `Math.sqrt` is strictly
monotone on non-negative reals, so every comparison of distances (and of
a distance with the non-negative threshold) in the source is equivalent
to the comparison of the squares used here. -/
def colorDistanceSq (a b : ℤ × ℤ × ℤ) : ℤ :=
  (a.1 - b.1) ^ 2 + (a.2.1 - b.2.1) ^ 2 + (a.2.2 - b.2.2) ^ 2

/-- `findClosestColor(rgb)`: scan the palette keeping the strictly
closest color so far (index and squared distance); `none` plays the role
of the initial `minDistance: Infinity`. -/
def findClosestColor (rgb : ℤ × ℤ × ℤ) : ℕ × ℤ :=
  (PALETTE_RGB.enum.foldl
    (fun best ic =>
      match best with
      | none => some (ic.1, colorDistanceSq rgb ic.2)
      | some b => if colorDistanceSq rgb ic.2 < b.2 then some (ic.1, colorDistanceSq rgb ic.2)
                  else some b)
    none).getD (0, 0)

/-- The configuration of `createFrameAnalyzer`. -/
structure AnalyzerOptions where
  threshold : ℤ
  minChangeTime : ℤ
  samplesRequired : ℕ
deriving DecidableEq

/-- The mutable state of a frame analyzer; a detected color is its
palette index. -/
structure AnalyzerState where
  lastDetectedColor : Option ℕ
  lastChangeTime : ℤ
  stableColorCount : ℕ
  currentSamples : List ℕ
deriving DecidableEq

/-- `analyzeColor(rgb, timestamp)`: returns the updated state and the
emitted stable-color event, if any.  `currentSamples[0]` is `headI`
(never read on an empty list when `samplesRequired ≥ 1`, since
`every` over an empty array cannot make the length test succeed). -/
def analyzeColor (opts : AnalyzerOptions) (s : AnalyzerState)
    (rgb : ℤ × ℤ × ℤ) (timestamp : ℤ) : AnalyzerState × Option ℕ :=
  let m := findClosestColor rgb
  if m.2 > opts.threshold ^ 2 then
    ({ s with stableColorCount := 0, currentSamples := [] }, none)
  else
    let pushed := s.currentSamples ++ [m.1]
    let currentSamples := if pushed.length > opts.samplesRequired then pushed.tail else pushed
    if currentSamples.length = opts.samplesRequired ∧
        ∀ x ∈ currentSamples, x = currentSamples.headI then
      if some currentSamples.headI ≠ s.lastDetectedColor then
        if timestamp - s.lastChangeTime ≥ opts.minChangeTime then
          ({ s with lastDetectedColor := some currentSamples.headI,
                    lastChangeTime := timestamp,
                    stableColorCount := 0,
                    currentSamples := currentSamples }, some currentSamples.headI)
        else ({ s with currentSamples := currentSamples }, none)
      else ({ s with stableColorCount := s.stableColorCount + 1,
                     currentSamples := currentSamples }, none)
    else ({ s with stableColorCount := 0, currentSamples := currentSamples }, none)

/-- Feed a stream of `(rgb, timestamp)` samples through `analyzeColor`,
collecting the emitted `(color, timestamp)` detection events. -/
def analyzerRun (opts : AnalyzerOptions) (s : AnalyzerState) :
    List ((ℤ × ℤ × ℤ) × ℤ) → List (ℕ × ℤ)
  | [] => []
  | (rgb, t) :: rest =>
      match (analyzeColor opts s rgb t).2 with
      | some c => (c, t) :: analyzerRun opts (analyzeColor opts s rgb t).1 rest
      | none => analyzerRun opts (analyzeColor opts s rgb t).1 rest

/-- When `analyzeColor` emits an event it records the emitted color as
the last detected one, and that color differs from the previous
`lastDetectedColor`. -/
theorem analyzeColor_emit (opts : AnalyzerOptions) (s : AnalyzerState)
    (rgb : ℤ × ℤ × ℤ) (t : ℤ) (c : ℕ)
    (h : (analyzeColor opts s rgb t).2 = some c) :
    (analyzeColor opts s rgb t).1.lastDetectedColor = some c ∧
      s.lastDetectedColor ≠ some c := by
  simp only [analyzeColor] at h ⊢
  split_ifs at h ⊢
  all_goals
    first
    | exact Option.noConfusion h
    | (injection h with hc
       subst hc
       exact ⟨rfl, fun hcontra => ‹some _ ≠ s.lastDetectedColor› hcontra.symm⟩)

/-- When `analyzeColor` emits nothing, `lastDetectedColor` is unchanged. -/
theorem analyzeColor_noemit (opts : AnalyzerOptions) (s : AnalyzerState)
    (rgb : ℤ × ℤ × ℤ) (t : ℤ)
    (h : (analyzeColor opts s rgb t).2 = none) :
    (analyzeColor opts s rgb t).1.lastDetectedColor = s.lastDetectedColor := by
  simp only [analyzeColor] at h ⊢
  split_ifs at h ⊢
  all_goals
    first
    | exact Option.noConfusion h
    | rfl

/-- One-step unfolding of `analyzerRun`. -/
theorem analyzerRun_cons_eq (opts : AnalyzerOptions) (s : AnalyzerState)
    (rgb : ℤ × ℤ × ℤ) (t : ℤ) (rest : List ((ℤ × ℤ × ℤ) × ℤ)) :
    analyzerRun opts s ((rgb, t) :: rest) =
      match (analyzeColor opts s rgb t).2 with
      | some c => (c, t) :: analyzerRun opts (analyzeColor opts s rgb t).1 rest
      | none => analyzerRun opts (analyzeColor opts s rgb t).1 rest := rfl

/-- Unfolding `analyzerRun` on a sample that produces no event. -/
theorem analyzerRun_cons_none (opts : AnalyzerOptions) (s : AnalyzerState)
    (rgb : ℤ × ℤ × ℤ) (t : ℤ) (rest : List ((ℤ × ℤ × ℤ) × ℤ))
    (h : (analyzeColor opts s rgb t).2 = none) :
    analyzerRun opts s ((rgb, t) :: rest) =
      analyzerRun opts (analyzeColor opts s rgb t).1 rest := by
  rw [analyzerRun_cons_eq, h]

/-- Unfolding `analyzerRun` on a sample that produces an event. -/
theorem analyzerRun_cons_some (opts : AnalyzerOptions) (s : AnalyzerState)
    (rgb : ℤ × ℤ × ℤ) (t : ℤ) (rest : List ((ℤ × ℤ × ℤ) × ℤ)) (c : ℕ)
    (h : (analyzeColor opts s rgb t).2 = some c) :
    analyzerRun opts s ((rgb, t) :: rest) =
      (c, t) :: analyzerRun opts (analyzeColor opts s rgb t).1 rest := by
  rw [analyzerRun_cons_eq, h]

/-- Along any run, consecutive emitted events carry different colors, and
the first emitted event differs from the entry `lastDetectedColor`. -/
theorem analyzerRun_chain (opts : AnalyzerOptions) (inputs : List ((ℤ × ℤ × ℤ) × ℤ))
    (s : AnalyzerState) :
    List.Chain' (fun a b => a.1 ≠ b.1) (analyzerRun opts s inputs) ∧
      (∀ e, (analyzerRun opts s inputs).head? = some e →
        s.lastDetectedColor ≠ some e.1) := by
  induction inputs generalizing s with
  | nil => exact ⟨List.chain'_nil, fun e he => Option.noConfusion he⟩
  | cons p rest ih =>
    obtain ⟨rgb, t⟩ := p
    rcases hemit : (analyzeColor opts s rgb t).2 with _ | c
    · have hlast := analyzeColor_noemit opts s rgb t hemit
      obtain ⟨ihc, ihh⟩ := ih (analyzeColor opts s rgb t).1
      rw [analyzerRun_cons_none opts s rgb t rest hemit]
      refine ⟨ihc, ?_⟩
      intro e he
      rw [← hlast]
      exact ihh e he
    · have hlast := analyzeColor_emit opts s rgb t c hemit
      obtain ⟨ihc, ihh⟩ := ih (analyzeColor opts s rgb t).1
      rw [analyzerRun_cons_some opts s rgb t rest c hemit]
      refine ⟨?_, ?_⟩
      · apply List.chain'_cons'.mpr
        refine ⟨?_, ihc⟩
        intro e he
        have := ihh e (Option.mem_def.mp he)
        rw [hlast.1] at this
        exact fun hc => this (congrArg some hc)
      · intro e he
        rw [List.head?_cons, Option.some.injEq] at he
        rw [← he]
        exact hlast.2

/-- C9.  The classifier never emits two consecutive detection events for
the same symbol unless at least `minChangeTime` has elapsed between them
(in fact consecutive events always carry different symbols). -/
theorem c9_no_repeat_without_min_change (opts : AnalyzerOptions)
    (s : AnalyzerState) (inputs : List ((ℤ × ℤ × ℤ) × ℤ)) (i : ℕ)
    (hi : i + 1 < (analyzerRun opts s inputs).length) :
    ((analyzerRun opts s inputs).getD i (0, 0)).1 ≠
        ((analyzerRun opts s inputs).getD (i + 1) (0, 0)).1 ∨
      ((analyzerRun opts s inputs).getD (i + 1) (0, 0)).2 -
        ((analyzerRun opts s inputs).getD i (0, 0)).2 ≥ opts.minChangeTime := by
  left
  have hchain := (analyzerRun_chain opts inputs s).1
  have hget := List.chain'_iff_get.mp hchain i (by omega)
  rw [List.getD_eq_getElem _ _ (by omega), List.getD_eq_getElem _ _ hi]
  simpa [List.get_eq_getElem] using hget

/-- Witness for `c9_no_repeat_without_min_change`: two samples producing
two events (red then green). -/
theorem c9_no_repeat_witness :
    ((analyzerRun ⟨50, 50, 1⟩ ⟨none, 0, 0, []⟩
        [((255, 0, 0), 100), ((0, 255, 0), 200)]).getD 0 (0, 0)).1 ≠
        ((analyzerRun ⟨50, 50, 1⟩ ⟨none, 0, 0, []⟩
          [((255, 0, 0), 100), ((0, 255, 0), 200)]).getD 1 (0, 0)).1 ∨
      ((analyzerRun ⟨50, 50, 1⟩ ⟨none, 0, 0, []⟩
          [((255, 0, 0), 100), ((0, 255, 0), 200)]).getD 1 (0, 0)).2 -
        ((analyzerRun ⟨50, 50, 1⟩ ⟨none, 0, 0, []⟩
          [((255, 0, 0), 100), ((0, 255, 0), 200)]).getD 0 (0, 0)).2 ≥
        (⟨50, 50, 1⟩ : AnalyzerOptions).minChangeTime :=
  c9_no_repeat_without_min_change ⟨50, 50, 1⟩ ⟨none, 0, 0, []⟩
    [((255, 0, 0), 100), ((0, 255, 0), 200)] 0 (by decide)

/-- A sequenced message or fragment produced by `fragmentMessage` (the
`type`/`encoding` tags are irrelevant to the claims and omitted). -/
structure SeqMessage where
  content : List ℕ
  sequenceNumber : ℕ
  fragmentCount : ℕ
  fragmentNumber : ℕ
  totalLength : ℕ
  isFragment : Bool
deriving DecidableEq

/-- The chunking loop `for (i = 0; i < content.length; i += maxPayloadSize)
chunks.push(content.slice(i, i + maxPayloadSize))`, with a structural fuel
(`fuel ≥ content.length` suffices when the step is positive). -/
def chunksGo (m : ℕ) : ℕ → List ℕ → List (List ℕ)
  | 0, _ => []
  | _, [] => []
  | fuel + 1, l => l.take m :: chunksGo m fuel (l.drop m)

/-- The chunks of `content` of size `m` (last one possibly shorter). -/
def chunksOf (m : ℕ) (content : List ℕ) : List (List ℕ) :=
  chunksGo m content.length content

/-- `fragmentMessage(message)` of the sequencer: a single non-fragment
unit when the content fits, otherwise one fragment per chunk, all sharing
`currentSequence`. -/
def fragmentMessage (maxPayloadSize currentSequence : ℕ) (content : List ℕ) :
    List SeqMessage :=
  if content.length ≤ maxPayloadSize then
    [⟨content, currentSequence, 1, 0, content.length, false⟩]
  else
    let chunks := chunksOf maxPayloadSize content
    chunks.enum.map (fun ic =>
      ⟨ic.2, currentSequence, chunks.length, ic.1, content.length, true⟩)

/-- A reassembly buffer: the slot array, the received count and the
recorded total length. -/
structure FragmentBuffer where
  fragments : List (Option SeqMessage)
  received : ℕ
  totalLength : ℕ
deriving DecidableEq

/-- The assembler's `fragments` map (`sequenceNumber ↦ buffer`), as an
association list in insertion order like a JavaScript `Map`. -/
structure AssemblerState where
  buffers : List (ℕ × FragmentBuffer)
deriving DecidableEq

/-- `Map.prototype.set`: update in place, or append a new entry. -/
def mapSet (k : ℕ) (v : FragmentBuffer) :
    List (ℕ × FragmentBuffer) → List (ℕ × FragmentBuffer)
  | [] => [(k, v)]
  | (k', v') :: rest => if k' = k then (k, v) :: rest else (k', v') :: mapSet k v rest

/-- `Map.prototype.delete`. -/
def mapDelete (k : ℕ) :
    List (ℕ × FragmentBuffer) → List (ℕ × FragmentBuffer)
  | [] => []
  | (k', v') :: rest => if k' = k then rest else (k', v') :: mapDelete k rest

/-- The value returned by `addFragment`: either the untouched non-fragment
message or a reassembled one (`wasReassembled` distinguishes the two). -/
structure AssembledMessage where
  content : List ℕ
  sequenceNumber : ℕ
  wasReassembled : Bool
deriving DecidableEq

/-- `assembleMessage(sequenceNumber)`: concatenate the slot contents in
fragment-number order (every slot is filled when this is called). -/
def assembleMessage (sequenceNumber : ℕ) (fd : FragmentBuffer) : AssembledMessage :=
  ⟨(fd.fragments.map (fun o => (o.map (·.content)).getD [])).flatten, sequenceNumber, true⟩

/-- `addFragment(fragment)`: non-fragments pass through; otherwise
lazily create the buffer, drop duplicates, fill the slot and assemble once
every slot is filled (the per-sequence timeout is a concurrency concern
outside this model and never fires during a synchronous run). -/
def addFragment (st : AssemblerState) (f : SeqMessage) :
    AssemblerState × Option AssembledMessage :=
  if f.isFragment = false then (st, some ⟨f.content, f.sequenceNumber, false⟩)
  else
    let buffers1 :=
      match st.buffers.lookup f.sequenceNumber with
      | none => mapSet f.sequenceNumber
          ⟨List.replicate f.fragmentCount none, 0, f.totalLength⟩ st.buffers
      | some _ => st.buffers
    match buffers1.lookup f.sequenceNumber with
    | none => (⟨buffers1⟩, none)
    | some fd =>
        if (fd.fragments.getD f.fragmentNumber none).isSome then (⟨buffers1⟩, none)
        else
          if fd.received + 1 = f.fragmentCount then
            (⟨mapDelete f.sequenceNumber buffers1⟩,
              some (assembleMessage f.sequenceNumber
                ⟨fd.fragments.set f.fragmentNumber (some f), fd.received + 1, fd.totalLength⟩))
          else
            (⟨mapSet f.sequenceNumber
                ⟨fd.fragments.set f.fragmentNumber (some f), fd.received + 1, fd.totalLength⟩
                buffers1⟩, none)

/-- Feed a list of fragments through `addFragment`, collecting the
non-null results. -/
def runAssembler (st : AssemblerState) :
    List SeqMessage → AssemblerState × List AssembledMessage
  | [] => (st, [])
  | f :: rest =>
      match addFragment st f with
      | (st', some msg) =>
          ((runAssembler st' rest).1, msg :: (runAssembler st' rest).2)
      | (st', none) => runAssembler st' rest

/-- One-step unfolding of `runAssembler`. -/
theorem runAssembler_cons (st : AssemblerState) (f : SeqMessage)
    (rest : List SeqMessage) :
    runAssembler st (f :: rest) =
      match addFragment st f with
      | (st', some msg) =>
          ((runAssembler st' rest).1, msg :: (runAssembler st' rest).2)
      | (st', none) => runAssembler st' rest := rfl

/-- The chunks concatenate back to the original content. -/
theorem chunksGo_flatten (m : ℕ) (hm : 1 ≤ m) :
    ∀ (fuel : ℕ) (l : List ℕ), l.length ≤ fuel → (chunksGo m fuel l).flatten = l := by
  intro fuel
  induction fuel with
  | zero =>
    intro l hl
    have : l = [] := List.eq_nil_of_length_eq_zero (Nat.le_zero.mp hl)
    subst this
    rfl
  | succ fuel ih =>
    intro l hl
    cases l with
    | nil => rfl
    | cons a t =>
      have hl' : t.length + 1 ≤ fuel + 1 := by simpa using hl
      show ((a :: t).take m :: chunksGo m fuel ((a :: t).drop m)).flatten = a :: t
      rw [List.flatten_cons,
        ih ((a :: t).drop m) (by simp only [List.length_drop, List.length_cons]; omega)]
      exact List.take_append_drop m (a :: t)

/-- `chunksOf` restores the content when flattened. -/
theorem chunksOf_flatten (m : ℕ) (hm : 1 ≤ m) (l : List ℕ) :
    (chunksOf m l).flatten = l :=
  chunksGo_flatten m hm l.length l (le_refl _)

/-- The number of chunks is `⌈length / m⌉`. -/
theorem chunksGo_length (m : ℕ) (hm : 1 ≤ m) :
    ∀ (fuel : ℕ) (l : List ℕ), l.length ≤ fuel →
      (chunksGo m fuel l).length = (l.length + m - 1) / m := by
  intro fuel
  induction fuel with
  | zero =>
    intro l hl
    have : l = [] := List.eq_nil_of_length_eq_zero (Nat.le_zero.mp hl)
    subst this
    show 0 = (0 + m - 1) / m
    rw [Nat.div_eq_of_lt (by omega)]
  | succ fuel ih =>
    intro l hl
    cases l with
    | nil =>
      show 0 = (0 + m - 1) / m
      rw [Nat.div_eq_of_lt (by omega)]
    | cons a t =>
      have hl' : t.length + 1 ≤ fuel + 1 := by simpa using hl
      show (chunksGo m fuel ((a :: t).drop m)).length + 1 = ((a :: t).length + m - 1) / m
      rw [ih ((a :: t).drop m) (by simp only [List.length_drop, List.length_cons]; omega)]
      simp only [List.length_drop, List.length_cons]
      have hmpos : 0 < m := hm
      by_cases hnm : t.length + 1 ≤ m
      · rw [show t.length + 1 - m = 0 from by omega, Nat.div_eq_of_lt (by omega),
          show t.length + 1 + m - 1 = t.length + m from by omega,
          Nat.add_div_right _ hmpos, Nat.div_eq_of_lt (by omega)]
      · rw [show t.length + 1 + m - 1 = (t.length + 1 - m + m - 1) + m from by omega,
          Nat.add_div_right _ hmpos]

/-- `chunksOf` yields `⌈length / m⌉` chunks. -/
theorem chunksOf_length (m : ℕ) (hm : 1 ≤ m) (l : List ℕ) :
    (chunksOf m l).length = (l.length + m - 1) / m :=
  chunksGo_length m hm l.length l (le_refl _)

/-- `⌈len / m⌉ = 1` when `1 ≤ len ≤ m`. -/
theorem ceil_div_eq_one (len m : ℕ) (h1 : 1 ≤ len) (h2 : len ≤ m) :
    (len + m - 1) / m = 1 := by
  rw [show len + m - 1 = (len - 1) + m from by omega,
    Nat.add_div_right _ (by omega), Nat.div_eq_of_lt (by omega)]

/-- Proof device: the slot array of a buffer that has received exactly
the fragments with numbers in `S`. -/
def slotsOf (frag : ℕ → SeqMessage) (N : ℕ) (S : Finset ℕ) : List (Option SeqMessage) :=
  (List.range N).map (fun i => if i ∈ S then some (frag i) else none)

/-- A fresh slot array is `slotsOf ∅`. -/
theorem slotsOf_empty (frag : ℕ → SeqMessage) (N : ℕ) :
    List.replicate N none = slotsOf frag N ∅ := by
  unfold slotsOf
  simp [List.eq_replicate_iff]

/-- Reading a slot. -/
theorem slotsOf_getD (frag : ℕ → SeqMessage) (N : ℕ) (S : Finset ℕ) (j : ℕ)
    (hj : j < N) :
    (slotsOf frag N S).getD j none = if j ∈ S then some (frag j) else none := by
  unfold slotsOf
  rw [List.getD_eq_getElem _ _ (by simpa using hj)]
  simp

/-- Filling slot `j`. -/
theorem slotsOf_set (frag : ℕ → SeqMessage) (N : ℕ) (S : Finset ℕ) (j : ℕ)
    (_hj : j < N) :
    (slotsOf frag N S).set j (some (frag j)) = slotsOf frag N (insert j S) := by
  apply List.ext_getElem
  · simp [slotsOf]
  · intro i h1 h2
    simp only [slotsOf, List.getElem_set, List.getElem_map, List.getElem_range,
      Finset.mem_insert]
    by_cases hij : j = i
    · subst hij
      simp
    · have hji : ¬(i = j) := fun h => hij h.symm
      rw [if_neg hij]
      simp only [hji, false_or]

/-- When every index is present, the slots are the fragments in order. -/
theorem slotsOf_full (frag : ℕ → SeqMessage) (N : ℕ) :
    slotsOf frag N (Finset.range N) = (List.range N).map (fun i => some (frag i)) := by
  unfold slotsOf
  apply List.map_congr_left
  intro i hi
  rw [if_pos (by simpa [Finset.mem_range] using List.mem_range.mp hi)]

/-- Proof device: the fragment numbers still missing when `S` has been
received. -/
def missing (N : ℕ) (S : Finset ℕ) : List ℕ :=
  (List.range N).filter (fun i => i ∉ S)

/-- Removing one satisfying element from a duplicate-free filtered list
is a permutation step. -/
theorem filter_perm_cons (l : List ℕ) (hl : l.Nodup) (j : ℕ) (hj : j ∈ l)
    (p q : ℕ → Bool) (hpj : p j = true)
    (hq : ∀ i, q i = (p i && !(i == j))) :
    (l.filter p).Perm (j :: l.filter q) := by
  induction l with
  | nil => exact absurd hj (List.not_mem_nil j)
  | cons a t ih =>
    rcases List.mem_cons.mp hj with haj | hjt
    · subst haj
      have hnotmem : j ∉ t := (List.nodup_cons.mp hl).1
      rw [List.filter_cons_of_pos hpj,
        List.filter_cons_of_neg (by rw [hq]; simp),
        show t.filter q = t.filter p from List.filter_congr (fun i hi => by
          have hij : i ≠ j := fun hc => hnotmem (hc ▸ hi)
          have hbeq : (i == j) = false := by simp [hij]
          rw [hq i, hbeq]
          simp)]
    · have hne : a ≠ j := fun hc => (List.nodup_cons.mp hl).1 (hc ▸ hjt)
      have ih' := ih (List.nodup_cons.mp hl).2 hjt
      by_cases hpa : p a = true
      · rw [List.filter_cons_of_pos hpa,
          List.filter_cons_of_pos (by rw [hq]; simp [hpa, hne])]
        exact (ih'.cons a).trans (List.Perm.swap j a _)
      · rw [List.filter_cons_of_neg (by simpa using hpa),
          List.filter_cons_of_neg (by rw [hq]; simp [Bool.eq_false_iff.mpr hpa])]
        exact ih'

/-- Consuming fragment `j` moves it from the missing list into `S`. -/
theorem missing_perm (N : ℕ) (S : Finset ℕ) (j : ℕ) (hj : j < N) (hjS : j ∉ S) :
    (missing N S).Perm (j :: missing N (insert j S)) := by
  apply filter_perm_cons (List.range N) (List.nodup_range N) j (List.mem_range.mpr hj)
  · simp [hjS]
  · intro i
    by_cases hij : i = j
    · subst hij
      simp
    · simp [Finset.mem_insert, hij]

/-- With everything received nothing is missing. -/
theorem missing_full (N : ℕ) : missing N (Finset.range N) = [] := by
  unfold missing
  rw [List.filter_eq_nil_iff]
  intro a ha
  simp [Finset.mem_range, List.mem_range.mp ha]

/-- With nothing received everything is missing. -/
theorem missing_empty (N : ℕ) : missing N ∅ = List.range N := by
  unfold missing
  rw [List.filter_eq_self]
  intro a _
  simp

/-- Rebuilding a list from positional reads. -/
theorem range_map_getD {α : Type} [Inhabited α] (l : List α) (d : α) :
    (List.range l.length).map (fun i => l.getD i d) = l := by
  apply List.ext_getElem
  · simp
  · intro i h1 h2
    simp only [List.getElem_map, List.getElem_range]
    exact List.getD_eq_getElem l d h2

/-- Proof device: the assembler state after receiving exactly the
fragments with numbers in `S` of a message fragmented into `N` parts. -/
def stOf (seq : ℕ) (frag : ℕ → SeqMessage) (N : ℕ) (S : Finset ℕ) (L : ℕ) :
    AssemblerState :=
  if S = ∅ then ⟨[]⟩ else ⟨[(seq, ⟨slotsOf frag N S, S.card, L⟩)]⟩

/-- The per-fragment step: feeding the (not previously received) fragment
`j` either completes the message (when it is the last missing one) or
extends the buffer. -/
theorem addFragment_step (frag : ℕ → SeqMessage) (seq N L : ℕ) (S : Finset ℕ)
    (j : ℕ)
    (hprops : ∀ i, i < N →
      (frag i).sequenceNumber = seq ∧ (frag i).fragmentNumber = i ∧
      (frag i).fragmentCount = N ∧ (frag i).isFragment = true ∧
      (frag i).totalLength = L)
    (hj : j < N) (hjS : j ∉ S) :
    addFragment (stOf seq frag N S L) (frag j) =
      if S.card + 1 = N then
        (⟨[]⟩, some (assembleMessage seq ⟨slotsOf frag N (insert j S), S.card + 1, L⟩))
      else
        (stOf seq frag N (insert j S) L, none) := by
  obtain ⟨hseq, hnum, hcount, hfrag, htot⟩ := hprops j hj
  have hne : ¬((frag j).isFragment = false) := by rw [hfrag]; simp
  unfold addFragment
  rw [if_neg hne]
  by_cases hSe : S = ∅
  · subst hSe
    simp only [stOf, if_pos rfl, hseq, hcount, htot, hnum]
    simp only [List.lookup, mapSet, slotsOf_empty frag N, beq_self_eq_true, if_pos rfl]
    rw [slotsOf_getD frag N ∅ j hj, if_neg (Finset.not_mem_empty j)]
    simp only [Option.isSome_none, Bool.false_eq_true, if_false,
      Finset.card_empty, zero_add, slotsOf_set frag N ∅ j hj]
    by_cases hfull : 1 = N
    · rw [if_pos hfull, if_pos hfull]
      simp [mapDelete]
    · rw [if_neg hfull, if_neg hfull]
      simp only [stOf, if_neg (Finset.insert_ne_empty j ∅), mapSet, if_pos rfl,
        Finset.card_insert_of_not_mem (Finset.not_mem_empty j), Finset.card_empty]
      simp
  · simp only [stOf, if_neg hSe, hseq, hcount, htot, hnum]
    simp only [List.lookup, beq_self_eq_true, if_pos rfl]
    rw [slotsOf_getD frag N S j hj, if_neg hjS]
    simp only [Option.isSome_none, Bool.false_eq_true, if_false,
      slotsOf_set frag N S j hj]
    by_cases hfull : S.card + 1 = N
    · rw [if_pos hfull, if_pos hfull]
      simp [mapDelete]
    · rw [if_neg hfull, if_neg hfull]
      simp only [stOf, if_neg (Finset.insert_ne_empty j S), mapSet, if_pos rfl,
        Finset.card_insert_of_not_mem hjS]
      simp

/-- Feeding the missing fragments of a fragmented message, in any order,
into the assembler completes it with exactly one assembled message whose
content is the concatenation of all fragment contents in order. -/
theorem runAssembler_feed (frag : ℕ → SeqMessage) (seq N L : ℕ)
    (hprops : ∀ i, i < N →
      (frag i).sequenceNumber = seq ∧ (frag i).fragmentNumber = i ∧
      (frag i).fragmentCount = N ∧ (frag i).isFragment = true ∧
      (frag i).totalLength = L) :
    ∀ (r : List SeqMessage) (S : Finset ℕ), S ⊆ Finset.range N →
      S ≠ Finset.range N → r.Perm ((missing N S).map frag) →
      runAssembler (stOf seq frag N S L) r =
        (⟨[]⟩, [⟨((List.range N).map (fun i => (frag i).content)).flatten, seq, true⟩]) := by
  intro r
  induction r with
  | nil =>
    intro S hsub hne hperm
    exfalso
    have hmap : (missing N S).map frag = [] := (hperm.symm).eq_nil
    have hmiss : missing N S = [] := List.map_eq_nil_iff.mp hmap
    apply hne
    apply Finset.Subset.antisymm hsub
    intro i hi
    by_contra hiS
    have hmem : i ∈ missing N S := by
      unfold missing
      rw [List.mem_filter]
      exact ⟨List.mem_range.mpr (Finset.mem_range.mp hi), by simpa using hiS⟩
    rw [hmiss] at hmem
    exact List.not_mem_nil i hmem
  | cons f r' ih =>
    intro S hsub hne hperm
    have hfmem : f ∈ (missing N S).map frag := hperm.mem_iff.mp (List.mem_cons_self f r')
    obtain ⟨j, hjmiss, hfj⟩ := List.mem_map.mp hfmem
    have hj : j < N := List.mem_range.mp (List.mem_filter.mp hjmiss).1
    have hjS : j ∉ S := by simpa using (List.mem_filter.mp hjmiss).2
    subst hfj
    have hperm' : r'.Perm ((missing N (insert j S)).map frag) := by
      have h1 : ((missing N S).map frag).Perm
          (frag j :: (missing N (insert j S)).map frag) := by
        simpa using (missing_perm N S j hj hjS).map frag
      exact (hperm.trans h1).cons_inv
    rw [runAssembler_cons, addFragment_step frag seq N L S j hprops hj hjS]
    by_cases hfull : S.card + 1 = N
    · rw [if_pos hfull]
      have hins : insert j S = Finset.range N := by
        apply Finset.eq_of_subset_of_card_le
        · intro x hx
          rcases Finset.mem_insert.mp hx with h | h
          · exact h ▸ Finset.mem_range.mpr hj
          · exact hsub h
        · rw [Finset.card_insert_of_not_mem hjS, Finset.card_range]
          omega
      have hr' : r' = [] := by
        have hmapnil : (missing N (insert j S)).map frag = [] := by
          rw [hins, missing_full]
          rfl
        rw [hmapnil] at hperm'
        exact hperm'.eq_nil
      subst hr'
      show ((runAssembler ⟨[]⟩ []).1,
        assembleMessage seq ⟨slotsOf frag N (insert j S), S.card + 1, L⟩ ::
          (runAssembler ⟨[]⟩ []).2) = _
      rw [hins]
      have hasm : assembleMessage seq ⟨slotsOf frag N (Finset.range N), S.card + 1, L⟩ =
          ⟨((List.range N).map (fun i => (frag i).content)).flatten, seq, true⟩ := by
        unfold assembleMessage
        rw [slotsOf_full, List.map_map]
        rfl
      rw [hasm]
      rfl
    · rw [if_neg hfull]
      show runAssembler (stOf seq frag N (insert j S) L) r' = _
      apply ih (insert j S) ?_ ?_ hperm'
      · intro x hx
        rcases Finset.mem_insert.mp hx with h | h
        · exact h ▸ Finset.mem_range.mpr hj
        · exact hsub h
      · intro hcontra
        apply hfull
        rw [← Finset.card_range N, ← hcontra, Finset.card_insert_of_not_mem hjS]

/-- In the fragmented case, `fragmentMessage` is the positional family of
chunk fragments. -/
theorem fragmentMessage_eq_map (m seq : ℕ) (content : List ℕ)
    (hlen : ¬content.length ≤ m) :
    fragmentMessage m seq content =
      (List.range (chunksOf m content).length).map (fun i =>
        (⟨(chunksOf m content).getD i [], seq, (chunksOf m content).length, i,
          content.length, true⟩ : SeqMessage)) := by
  unfold fragmentMessage
  rw [if_neg hlen]
  apply List.ext_getElem
  · simp
  · intro i h1 h2
    simp only [List.getElem_map, List.getElem_range, List.getElem_enum]
    congr 1
    rw [List.getD_eq_getElem]

/-- C7 counterexample.  For empty content, `fragmentMessage` produces one
unit with `fragmentCount = 1`, but `⌈0 / maxPayloadSize⌉ = 0`. -/
theorem c7_empty_content_fragment_count :
    (fragmentMessage 1024 0 []).map (·.fragmentCount) = [1] ∧
      (0 + 1024 - 1) / 1024 = 0 := by
  decide

/-- C7 amended.  For every non-empty content and positive payload size,
feeding all fragments of `fragmentMessage` into `addFragment` in any
delivery order yields exactly one assembled message with the original
content, and all fragments share the sequence number and carry
`fragmentCount = ⌈length / maxPayloadSize⌉`. -/
theorem c7_fragment_assemble_roundtrip (m seq : ℕ) (content : List ℕ)
    (hm : 1 ≤ m) (hne : content ≠ []) (l : List SeqMessage)
    (hperm : l.Perm (fragmentMessage m seq content)) :
    (runAssembler ⟨[]⟩ l).2.map (·.content) = [content] ∧
      ∀ f ∈ fragmentMessage m seq content,
        f.sequenceNumber = seq ∧
          f.fragmentCount = (content.length + m - 1) / m := by
  have hlen1 : 1 ≤ content.length := List.length_pos.mpr hne
  by_cases hlen : content.length ≤ m
  · rw [show fragmentMessage m seq content =
        [⟨content, seq, 1, 0, content.length, false⟩] from by
      unfold fragmentMessage; rw [if_pos hlen]] at hperm ⊢
    have hl : l = [⟨content, seq, 1, 0, content.length, false⟩] :=
      List.perm_singleton.mp hperm
    subst hl
    constructor
    · rfl
    · intro f hf
      rw [List.mem_singleton] at hf
      subst hf
      exact ⟨rfl, (ceil_div_eq_one content.length m hlen1 hlen).symm⟩
  · have hfr := fragmentMessage_eq_map m seq content hlen
    have hN1 : 1 ≤ (chunksOf m content).length := by
      rw [chunksOf_length m hm]
      rw [Nat.le_div_iff_mul_le (by omega)]
      omega
    have hfeed := runAssembler_feed
      (fun i => (⟨(chunksOf m content).getD i [], seq, (chunksOf m content).length, i,
        content.length, true⟩ : SeqMessage))
      seq (chunksOf m content).length content.length
      (fun i _ => ⟨rfl, rfl, rfl, rfl, rfl⟩)
      l ∅ (Finset.empty_subset _)
      (by
        intro hcontra
        have hcard := Finset.card_range (chunksOf m content).length
        rw [← hcontra, Finset.card_empty] at hcard
        omega)
      (by
        rw [missing_empty]
        exact hperm.trans (by rw [hfr]))
    rw [show stOf seq _ (chunksOf m content).length ∅ content.length = ⟨[]⟩ from
      if_pos rfl] at hfeed
    constructor
    · rw [hfeed]
      show [((List.range (chunksOf m content).length).map
        (fun i => (chunksOf m content).getD i [])).flatten] = [content]
      rw [range_map_getD, chunksOf_flatten m hm]
    · intro f hf
      rw [hfr] at hf
      obtain ⟨i, _, hfi⟩ := List.mem_map.mp hf
      subst hfi
      exact ⟨rfl, chunksOf_length m hm content⟩

/-- Witness for `c7_fragment_assemble_roundtrip`: `[1,2,3,4,5]` with
payload size 4, the two fragments delivered in reverse order. -/
theorem c7_fragment_assemble_witness :
    (runAssembler ⟨[]⟩ [⟨[5], 7, 2, 1, 5, true⟩, ⟨[1, 2, 3, 4], 7, 2, 0, 5, true⟩]).2.map
        (·.content) = [[1, 2, 3, 4, 5]] ∧
      ∀ f ∈ fragmentMessage 4 7 [1, 2, 3, 4, 5],
        f.sequenceNumber = 7 ∧
          f.fragmentCount = (([1, 2, 3, 4, 5] : List ℕ).length + 4 - 1) / 4 :=
  c7_fragment_assemble_roundtrip 4 7 [1, 2, 3, 4, 5] (by decide) (by decide)
    [⟨[5], 7, 2, 1, 5, true⟩, ⟨[1, 2, 3, 4], 7, 2, 0, 5, true⟩] (by decide)

/-- Masking with `2ⁿ - 1` is reduction mod `2ⁿ`. -/
theorem land_two_pow_sub_one (x n : ℕ) : x &&& (2 ^ n - 1) = x % 2 ^ n := by
  apply Nat.eq_of_testBit_eq
  intro i
  rw [Nat.testBit_land, Nat.testBit_two_pow_sub_one, Nat.testBit_mod_two_pow,
    Bool.and_comm]

/-- Attaching the next byte field on top of the low `m` bits. -/
theorem lor_byte_field (u m : ℕ) :
    (u % 2 ^ m) ||| ((u / 2 ^ m % 2 ^ 8) * 2 ^ m) = u % 2 ^ (m + 8) := by
  apply Nat.eq_of_testBit_eq
  intro i
  simp only [Nat.testBit_lor, Nat.testBit_mod_two_pow, ← Nat.shiftLeft_eq,
    Nat.testBit_shiftLeft, ← Nat.shiftRight_eq_div_pow, Nat.testBit_shiftRight]
  by_cases h1 : i < m
  · have e1 : ¬(i ≥ m) := by omega
    have e2 : i < m + 8 := by omega
    simp [h1, e1, e2]
  · by_cases h2 : i < m + 8
    · have e1 : i ≥ m := by omega
      have e2 : i - m < 8 := by omega
      rw [show m + (i - m) = i from by omega]
      simp [h1, h2, e1, e2]
    · have e1 : ¬(i - m < 8) := by omega
      simp [h1, h2, e1]

/-- A byte field extracted from `u` adds nothing new to `u`. -/
theorem lor_byte_field_self (u m : ℕ) :
    u ||| ((u / 2 ^ m % 2 ^ 8) * 2 ^ m) = u := by
  apply Nat.eq_of_testBit_eq
  intro i
  simp only [Nat.testBit_lor, Nat.testBit_mod_two_pow, ← Nat.shiftLeft_eq,
    Nat.testBit_shiftLeft, ← Nat.shiftRight_eq_div_pow, Nat.testBit_shiftRight]
  by_cases h1 : i ≥ m
  · by_cases h2 : i - m < 8
    · rw [show m + (i - m) = i from by omega]
      cases u.testBit i <;> simp [h1, h2]
    · simp [h2]
  · simp [h1]

/-- The 32-bit pattern is always below `2³²`. -/
theorem toUint32_lt (z : ℤ) : toUint32 z < 4294967296 := by
  unfold toUint32
  have h1 : 0 ≤ z % 4294967296 := Int.emod_nonneg z (by norm_num)
  have h2 : z % 4294967296 < 4294967296 := Int.emod_lt_of_pos z (by norm_num)
  omega

/-- The pattern of an in-range natural is itself. -/
theorem toUint32_natCast (u : ℕ) (hu : u < 4294967296) : toUint32 (u : ℤ) = u := by
  unfold toUint32
  rw [Int.emod_eq_of_lt (by positivity) (by exact_mod_cast hu)]
  exact Int.toNat_natCast u

/-- `toInt32` only depends on the value mod `2³²`. -/
theorem toInt32_emod (z : ℤ) : toInt32 z % 4294967296 = z % 4294967296 := by
  unfold toInt32
  split_ifs with h
  · exact Int.emod_emod_of_dvd z dvd_rfl
  · rw [Int.sub_emod, Int.emod_emod_of_dvd z dvd_rfl, Int.emod_self, sub_zero,
      Int.emod_emod_of_dvd z dvd_rfl]

/-- `ToUint32 ∘ ToInt32` is `ToUint32`. -/
theorem toUint32_toInt32 (z : ℤ) : toUint32 (toInt32 z) = toUint32 z := by
  unfold toUint32
  rw [toInt32_emod]

/-- `ToInt32` is idempotent. -/
theorem toInt32_idem (z : ℤ) : toInt32 (toInt32 z) = toInt32 z := by
  have h1 : 0 ≤ z % 4294967296 := Int.emod_nonneg z (by norm_num)
  have h2 : z % 4294967296 < 4294967296 := Int.emod_lt_of_pos z (by norm_num)
  have hmod : z % 4294967296 % 4294967296 = z % 4294967296 :=
    Int.emod_emod_of_dvd z dvd_rfl
  have hmod2 : (z % 4294967296 - 4294967296) % 4294967296 = z % 4294967296 := by
    rw [Int.sub_emod, hmod, Int.emod_self, sub_zero, Int.emod_eq_of_lt h1 h2]
  unfold toInt32
  by_cases ha : z % 4294967296 < 2147483648
  · simp only [if_pos ha, hmod, if_pos ha]
  · simp only [if_neg ha, hmod2, if_neg ha]

/-- `ToInt32` of the pattern is `ToInt32` of the value. -/
theorem toInt32_natCast_toUint32 (z : ℤ) : toInt32 ((toUint32 z : ℕ) : ℤ) = toInt32 z := by
  have hz : ((toUint32 z : ℕ) : ℤ) = z % 4294967296 := by
    unfold toUint32
    exact Int.toNat_of_nonneg (Int.emod_nonneg z (by norm_num))
  unfold toInt32
  rw [hz, Int.emod_emod_of_dvd z dvd_rfl]

/-- Signed 32-bit values are below `2³¹`. -/
theorem toInt32_lt (z : ℤ) : toInt32 z < 2147483648 := by
  unfold toInt32
  have h2 : z % 4294967296 < 4294967296 := Int.emod_lt_of_pos z (by norm_num)
  split_ifs with h
  · exact h
  · omega

/-- A small natural is its own signed 32-bit value. -/
theorem toInt32_natCast_small (u : ℕ) (hu : u < 2147483648) :
    toInt32 (u : ℤ) = u := by
  unfold toInt32
  rw [Int.emod_eq_of_lt (by positivity) (by exact_mod_cast (by omega : u < 4294967296))]
  rw [if_pos (by exact_mod_cast hu)]

/-- A large in-range natural wraps to a negative signed value. -/
theorem toInt32_natCast_large (u : ℕ) (h1 : 2147483648 ≤ u) (h2 : u < 4294967296) :
    toInt32 (u : ℤ) = (u : ℤ) - 4294967296 := by
  unfold toInt32
  rw [Int.emod_eq_of_lt (by positivity) (by exact_mod_cast h2)]
  rw [if_neg (by omega)]

/-- Masking with `0xFFFFFFFF` is `ToInt32`. -/
theorem jsAnd_ffffffff (z : ℤ) : jsAnd z 4294967295 = toInt32 z := by
  unfold jsAnd
  rw [show toUint32 4294967295 = 4294967295 from rfl,
    show (4294967295 : ℕ) = 2 ^ 32 - 1 from rfl, land_two_pow_sub_one,
    Nat.mod_eq_of_lt (show toUint32 z < 2 ^ 32 by simpa using toUint32_lt z),
    toInt32_natCast_toUint32]

/-- The pattern of any natural number cast to a JavaScript 32-bit value. -/
theorem toUint32_natCast_mod (u : ℕ) : toUint32 (u : ℤ) = u % 4294967296 := by
  unfold toUint32
  norm_cast

/-- Proof device: the unsigned 32-bit pattern of one rolling-checksum
step. -/
def rsStepU (u b : ℕ) : ℕ :=
  ((u * 256) % 4294967296) ^^^ b

/-- The pattern stays below `2³²`. -/
theorem rsStepU_lt (u b : ℕ) (hb : b < 4294967296) : rsStepU u b < 4294967296 := by
  unfold rsStepU
  have h1 : (u * 256) % 4294967296 < 4294967296 := Nat.mod_lt _ (by norm_num)
  have h2 := Nat.xor_lt_two_pow
    (show (u * 256) % 4294967296 < 2 ^ 32 by simpa using h1)
    (show b < 2 ^ 32 by simpa using hb)
  simpa using h2

/-- One step of the rolling checksum, tracked on patterns; the
`> 0x80000000` reduction branch is dead because a signed 32-bit value is
at most `2³¹ - 1`. -/
theorem rsChecksumStep_eq (u b : ℕ) (hu : u < 4294967296) (hb : b < 4294967296) :
    rsChecksumStep (toInt32 (u : ℤ)) b = toInt32 ((rsStepU u b : ℕ) : ℤ) := by
  have hshl : jsShl (toInt32 (u : ℤ)) 8 = toInt32 ((u * 256 : ℕ) : ℤ) := by
    unfold jsShl
    rw [toUint32_toInt32, toUint32_natCast u hu]
    norm_num
  have hxor : jsXor (toInt32 ((u * 256 : ℕ) : ℤ)) ((b : ℕ) : ℤ) =
      toInt32 ((rsStepU u b : ℕ) : ℤ) := by
    unfold jsXor rsStepU
    rw [toUint32_toInt32, toUint32_natCast_mod (u * 256), toUint32_natCast b hb]
  simp only [rsChecksumStep]
  rw [hshl, hxor, jsAnd_ffffffff, toInt32_idem]
  rw [if_neg (by have := toInt32_lt ((rsStepU u b : ℕ) : ℤ); omega)]

/-- The rolling checksum of a byte list equals the signed value of its
pattern-level fold. -/
theorem rsChecksum_foldl (data : List ℕ) (hb : ∀ x ∈ data, x < 256) :
    ∀ (u : ℕ), u < 4294967296 →
      data.foldl rsChecksumStep (toInt32 (u : ℤ)) =
        toInt32 ((data.foldl rsStepU u : ℕ) : ℤ) ∧
        data.foldl rsStepU u < 4294967296 := by
  induction data with
  | nil =>
    intro u hu
    refine ⟨?_, ?_⟩
    · rw [List.foldl_nil, List.foldl_nil]
    · rw [List.foldl_nil]
      exact hu
  | cons x t ih =>
    intro u hu
    have hx : x < 4294967296 := by have := hb x (List.mem_cons_self x t); omega
    simp only [List.foldl_cons]
    rw [rsChecksumStep_eq u x hu hx]
    exact ih (fun y hy => hb y (List.mem_cons_of_mem x hy)) (rsStepU u x)
      (rsStepU_lt u x hx)

/-- The rolling checksum from the initial value `0`. -/
theorem rsChecksum_foldl_zero (data : List ℕ) (hb : ∀ x ∈ data, x < 256) :
    data.foldl rsChecksumStep 0 = toInt32 ((data.foldl rsStepU 0 : ℕ) : ℤ) ∧
      data.foldl rsStepU 0 < 4294967296 := by
  have h := rsChecksum_foldl data hb 0 (by norm_num)
  rwa [show toInt32 ((0 : ℕ) : ℤ) = 0 from by norm_num [toInt32]] at h

/-- Masking any 32-bit value with `0xFF` gives the low byte of its
pattern. -/
theorem jsAnd_255_general (z : ℤ) : jsAnd z 255 = ((toUint32 z % 256 : ℕ) : ℤ) := by
  unfold jsAnd
  rw [show toUint32 255 = 255 from rfl, show (255 : ℕ) = 2 ^ 8 - 1 from rfl,
    land_two_pow_sub_one]
  rw [toInt32_natCast_small _
    (by have := Nat.mod_lt (toUint32 z) (show 0 < 2 ^ 8 by norm_num); omega)]
  norm_num

/-- The low byte of a pattern, read back in `ℤ`. -/
theorem toUint32_mod256_cast (z : ℤ) : ((toUint32 z % 256 : ℕ) : ℤ) = z % 256 := by
  have hz : ((toUint32 z : ℕ) : ℤ) = z % 4294967296 := by
    unfold toUint32
    exact Int.toNat_of_nonneg (Int.emod_nonneg z (by norm_num))
  rw [Int.natCast_mod, hz,
    show (((256 : ℕ) : ℤ)) = (256 : ℤ) from rfl,
    Int.emod_emod_of_dvd z (by norm_num : (256 : ℤ) ∣ 4294967296)]

/-- The i-th stored checksum byte is byte `i % 4` of the checksum
pattern (the JavaScript shift count is reduced mod 32). -/
theorem rsByte_eq (u : ℕ) (hu : u < 4294967296) (i : ℕ) :
    rsByte (toInt32 (u : ℤ)) i = u / 2 ^ (8 * (i % 4)) % 256 := by
  have hsh : (i * 8) % 32 = 8 * (i % 4) := by omega
  have hk24 : 8 * (i % 4) ≤ 24 := by omega
  unfold rsByte jsSar
  rw [toInt32_idem, hsh, Int.fdiv_eq_ediv _ (by positivity), jsAnd_255_general,
    Int.toNat_natCast]
  by_cases hsmall : u < 2147483648
  · rw [toInt32_natCast_small u hsmall,
      show ((2 : ℤ) ^ (8 * (i % 4))) = ((2 ^ (8 * (i % 4)) : ℕ) : ℤ) from by push_cast; ring,
      ← Int.ofNat_ediv, toUint32_natCast _ (by
        have := Nat.div_le_self u (2 ^ (8 * (i % 4)))
        omega)]
  · rw [toInt32_natCast_large u (by omega) hu]
    have hdiv : ((u : ℤ) - 4294967296) / 2 ^ (8 * (i % 4)) =
        ((u / 2 ^ (8 * (i % 4)) : ℕ) : ℤ) - 2 ^ (32 - 8 * (i % 4)) := by
      rw [show (4294967296 : ℤ) = 2 ^ (32 - 8 * (i % 4)) * 2 ^ (8 * (i % 4)) from by
          rw [← pow_add, show 32 - 8 * (i % 4) + 8 * (i % 4) = 32 from by omega]
          norm_num,
        sub_eq_add_neg,
        show -((2 : ℤ) ^ (32 - 8 * (i % 4)) * 2 ^ (8 * (i % 4))) =
          (-(2 ^ (32 - 8 * (i % 4)))) * 2 ^ (8 * (i % 4)) from by ring,
        Int.add_mul_ediv_right _ _ (by positivity),
        show ((2 : ℤ) ^ (8 * (i % 4))) = ((2 ^ (8 * (i % 4)) : ℕ) : ℤ) from by
          push_cast; ring,
        ← Int.ofNat_ediv]
      ring
    rw [hdiv]
    have hcast : ((toUint32 (((u / 2 ^ (8 * (i % 4)) : ℕ) : ℤ) -
        2 ^ (32 - 8 * (i % 4))) % 256 : ℕ) : ℤ) =
        ((u / 2 ^ (8 * (i % 4)) % 256 : ℕ) : ℤ) := by
      rw [toUint32_mod256_cast, Int.sub_emod,
        show ((2 : ℤ) ^ (32 - 8 * (i % 4))) % 256 = 0 from
          Int.emod_eq_zero_of_dvd (by
            rw [show (256 : ℤ) = 2 ^ 8 from by norm_num]
            exact pow_dvd_pow 2 (by omega)),
        sub_zero, Int.emod_emod_of_dvd _ dvd_rfl]
      norm_cast
    exact_mod_cast hcast

/-- Reassembling the first `j ≤ 4` checksum bytes recovers the low
`8 j` bits of the pattern. -/
theorem rsReassemble_aux (u : ℕ) :
    ∀ j, j ≤ 4 →
      (List.range j).foldl
        (fun acc i => jsOr acc (jsShl ((u / 2 ^ (8 * (i % 4)) % 256 : ℕ) : ℤ) (i * 8))) 0 =
        toInt32 ((u % 2 ^ (8 * j) : ℕ) : ℤ) := by
  intro j
  induction j with
  | zero =>
    intro _
    rw [List.range_zero, List.foldl_nil]
    norm_num [toInt32]
  | succ j ih =>
    intro hj
    have hj3 : j ≤ 3 := by omega
    rw [List.range_succ, List.foldl_append, ih (by omega), List.foldl_cons,
      List.foldl_nil]
    have hjm : j % 4 = j := Nat.mod_eq_of_lt (by omega)
    have hsh : (j * 8) % 32 = j * 8 := Nat.mod_eq_of_lt (by omega)
    have hb : u / 2 ^ (8 * j) % 256 < 256 := Nat.mod_lt _ (by norm_num)
    have hpow : (2 : ℕ) ^ (8 * j) ≤ 2 ^ 24 := Nat.pow_le_pow_right (by norm_num) (by omega)
    have hprod : (u / 2 ^ (8 * j) % 256) * 2 ^ (8 * j) < 4294967296 := by
      calc (u / 2 ^ (8 * j) % 256) * 2 ^ (8 * j) ≤ 255 * 2 ^ 24 :=
        Nat.mul_le_mul (by omega) hpow
      _ < 4294967296 := by norm_num
    have hmlt : u % 2 ^ (8 * j) < 4294967296 := by
      have := Nat.mod_lt u (show 0 < 2 ^ (8 * j) by positivity)
      have h24 : (2 : ℕ) ^ (8 * j) ≤ 2 ^ 24 := hpow
      omega
    have hshl : jsShl ((u / 2 ^ (8 * (j % 4)) % 256 : ℕ) : ℤ) (j * 8) =
        toInt32 (((u / 2 ^ (8 * j) % 256) * 2 ^ (8 * j) : ℕ) : ℤ) := by
      unfold jsShl
      rw [hjm, hsh, toUint32_natCast _ (by omega),
        show j * 8 = 8 * j from by ring]
    rw [hshl]
    unfold jsOr
    rw [toUint32_toInt32, toUint32_toInt32, toUint32_natCast _ hmlt,
      toUint32_natCast _ hprod, show (256 : ℕ) = 2 ^ 8 from rfl, lor_byte_field,
      show 8 * j + 8 = 8 * (j + 1) from by ring]

/-- Reassembling `n ≥ 4` checksum bytes (the stored bytes repeat with
period 4) recovers the whole checksum pattern. -/
theorem rsReassemble (u : ℕ) (hu : u < 4294967296) (n : ℕ) (hn : 4 ≤ n) :
    (List.range n).foldl
      (fun acc i => jsOr acc (jsShl ((u / 2 ^ (8 * (i % 4)) % 256 : ℕ) : ℤ) (i * 8))) 0 =
      toInt32 ((u : ℕ) : ℤ) := by
  induction n with
  | zero => omega
  | succ n ihn =>
    rcases Nat.lt_or_ge n 4 with hlt | hge
    · rw [show n + 1 = 4 from by omega, rsReassemble_aux u 4 (le_refl 4),
        Nat.mod_eq_of_lt (show u < 2 ^ (8 * 4) by simpa using hu)]
    · rw [List.range_succ, List.foldl_append, ihn hge, List.foldl_cons,
        List.foldl_nil]
      have hsh : (n * 8) % 32 = 8 * (n % 4) := by omega
      have hb : u / 2 ^ (8 * (n % 4)) % 256 < 256 := Nat.mod_lt _ (by norm_num)
      have hpow : (2 : ℕ) ^ (8 * (n % 4)) ≤ 2 ^ 24 :=
        Nat.pow_le_pow_right (by norm_num) (by omega)
      have hprod : (u / 2 ^ (8 * (n % 4)) % 256) * 2 ^ (8 * (n % 4)) < 4294967296 := by
        calc (u / 2 ^ (8 * (n % 4)) % 256) * 2 ^ (8 * (n % 4)) ≤ 255 * 2 ^ 24 :=
          Nat.mul_le_mul (by omega) hpow
        _ < 4294967296 := by norm_num
      have hshl : jsShl ((u / 2 ^ (8 * (n % 4)) % 256 : ℕ) : ℤ) (n * 8) =
          toInt32 (((u / 2 ^ (8 * (n % 4)) % 256) * 2 ^ (8 * (n % 4)) : ℕ) : ℤ) := by
        unfold jsShl
        rw [hsh, toUint32_natCast _ (by omega)]
      rw [hshl]
      unfold jsOr
      rw [toUint32_toInt32, toUint32_toInt32, toUint32_natCast u hu,
        toUint32_natCast _ hprod, show (256 : ℕ) = 2 ^ 8 from rfl,
        lor_byte_field_self]

/-- C10 counterexample.  For the 4-byte array `[1,2,3,4]` only one
checksum byte is stored, but `reedSolomonDecode` compares the full 32-bit
recomputed checksum (`0x01020304`) with the single reassembled byte, so
the decode of an uncorrupted encode reports `valid: false` and one
error. -/
theorem c10_short_roundtrip_invalid :
    reedSolomonDecode 1 (reedSolomonEncode 1 [1, 2, 3, 4]) =
      ⟨[1, 2, 3, 4], 1, 0, false⟩ := by
  have he : reedSolomonEncode 1 [1, 2, 3, 4] = [1, 2, 3, 4, 4] := by
    simp only [reedSolomonEncode]
    norm_num [jsLoopCount]
    decide
  rw [he]
  simp only [reedSolomonDecode]
  norm_num [jsLoopCount, jsToIndex]
  decide

/-- C10 amended.  In `'reed-solomon'` mode with strength 1, for every
byte array whose length is a multiple of 4 and is either 0 or at least 16
(so that at least the full 4 checksum bytes are stored),
`decode(encode(data))` returns the original data with `valid: true` and
`errors: 0`. -/
theorem c10_reed_solomon_roundtrip (data : List ℕ)
    (hbytes : ∀ b ∈ data, b < 256)
    (hmod : data.length % 4 = 0)
    (hlen : data.length = 0 ∨ 16 ≤ data.length) :
    reedSolomonDecode 1 (reedSolomonEncode 1 data) = ⟨data, 0, 0, true⟩ := by
  rcases hlen with h0 | h16
  · have hnil : data = [] := List.eq_nil_of_length_eq_zero h0
    subst hnil
    have he : reedSolomonEncode 1 ([] : List ℕ) = [] := by
      simp only [reedSolomonEncode]
      norm_num [jsLoopCount]
    rw [he]
    simp only [reedSolomonDecode]
    norm_num [jsLoopCount, jsToIndex]
  · have hlen4 : data.length = 4 * (data.length / 4) := by omega
    set k := data.length / 4 with hk
    have hk4 : 4 ≤ k := by omega
    obtain ⟨hcfold, hult⟩ := rsChecksum_foldl_zero data hbytes
    set u := data.foldl rsStepU 0 with hu_def
    have hcsE : jsLoopCount (min 32 ((data.length : ℚ) / 4 * ((1 : ℕ) : ℚ))) =
        min 32 k := by
      unfold jsLoopCount
      rw [hlen4]
      rw [show ((4 * k : ℕ) : ℚ) / 4 * ((1 : ℕ) : ℚ) = (k : ℚ) from by push_cast; ring]
      rw [show ((32 : ℚ)) = ((32 : ℕ) : ℚ) from by norm_num, ← Nat.cast_min,
        Int.ceil_natCast, Int.toNat_natCast]
    have henc : reedSolomonEncode 1 data =
        data ++ (List.range (min 32 k)).map
          (fun i => rsByte (data.foldl rsChecksumStep 0) i) := by
      simp only [reedSolomonEncode]
      rw [hcsE]
    have hlenc : (reedSolomonEncode 1 data).length = 4 * k + min 32 k := by
      rw [henc]
      simp [← hlen4]
    have hq5 : min (32 : ℚ) (((4 * k + min 32 k : ℕ) : ℚ) / 5 * ((1 : ℕ) : ℚ)) =
        ((min 32 k : ℕ) : ℚ) := by
      rcases le_or_lt k 32 with hk32 | hk32
      · rw [min_eq_right hk32]
        rw [show ((4 * k + k : ℕ) : ℚ) / 5 * ((1 : ℕ) : ℚ) = (k : ℚ) from by
          push_cast; ring]
        exact min_eq_right (by exact_mod_cast hk32)
      · rw [min_eq_left (by omega : 32 ≤ k)]
        rw [show ((4 * k + 32 : ℕ) : ℚ) / 5 * ((1 : ℕ) : ℚ) = (4 * (k : ℚ) + 32) / 5 from by
          push_cast; ring]
        rw [min_eq_left (by
          rw [le_div_iff₀ (by norm_num : (0 : ℚ) < 5)]
          have hkq : (32 : ℚ) ≤ (k : ℚ) := by exact_mod_cast (by omega : 32 ≤ k)
          linarith)]
        norm_num
    have hcsD : jsLoopCount (min 32 (((4 * k + min 32 k : ℕ) : ℚ) / 5 * ((1 : ℕ) : ℚ))) =
        min 32 k := by
      unfold jsLoopCount
      rw [hq5, Int.ceil_natCast, Int.toNat_natCast]
    have hdataLen : jsToIndex (((4 * k + min 32 k : ℕ) : ℚ) -
        min 32 (((4 * k + min 32 k : ℕ) : ℚ) / 5 * ((1 : ℕ) : ℚ))) = 4 * k := by
      unfold jsToIndex
      rw [hq5, show ((4 * k + min 32 k : ℕ) : ℚ) - ((min 32 k : ℕ) : ℚ) =
        (((4 * k : ℕ) : ℚ)) from by push_cast; ring]
      rw [Int.floor_natCast, Int.toNat_natCast]
    have hgetD : ∀ i, i < min 32 k →
        (reedSolomonEncode 1 data).getD (4 * k + i) 0 = u / 2 ^ (8 * (i % 4)) % 256 := by
      intro i hi
      rw [henc, List.getD_append_right _ _ _ _ (by omega : data.length ≤ 4 * k + i),
        show 4 * k + i - data.length = i from by omega,
        List.getD_eq_getElem _ _ (by simpa using hi)]
      simp only [List.getElem_map, List.getElem_range]
      rw [hcfold, rsByte_eq u hult i]
    have hfold : (List.range (min 32 k)).foldl
        (fun acc i => jsOr acc
          (jsShl (((reedSolomonEncode 1 data).getD (4 * k + i) 0 : ℕ) : ℤ) (i * 8))) 0 =
        toInt32 ((u : ℕ) : ℤ) := by
      rw [List.foldl_ext _
        (fun acc i => jsOr acc (jsShl ((u / 2 ^ (8 * (i % 4)) % 256 : ℕ) : ℤ) (i * 8)))
        0 (fun a b hb => by rw [hgetD b (List.mem_range.mp hb)])]
      exact rsReassemble u hult (min 32 k) (by omega)
    have htake : (reedSolomonEncode 1 data).take (4 * k) = data := by
      rw [henc, show 4 * k = data.length from hlen4.symm, List.take_left]
    simp only [reedSolomonDecode]
    rw [hlenc, hcsD, hdataLen, htake, hcfold, hfold]
    simp

/-- Witness for C10 amended: a concrete 16-byte array round-trips through
`reedSolomonEncode`/`reedSolomonDecode` with `valid: true`. -/
theorem c10_reed_solomon_roundtrip_witness :
    (∀ b ∈ ([1, 2, 3, 4, 5, 6, 7, 8, 9, 10, 11, 12, 13, 14, 15, 16] : List ℕ), b < 256) ∧
      ([1, 2, 3, 4, 5, 6, 7, 8, 9, 10, 11, 12, 13, 14, 15, 16] : List ℕ).length % 4 = 0 ∧
      (([1, 2, 3, 4, 5, 6, 7, 8, 9, 10, 11, 12, 13, 14, 15, 16] : List ℕ).length = 0 ∨
        16 ≤ ([1, 2, 3, 4, 5, 6, 7, 8, 9, 10, 11, 12, 13, 14, 15, 16] : List ℕ).length) ∧
      reedSolomonDecode 1
          (reedSolomonEncode 1 [1, 2, 3, 4, 5, 6, 7, 8, 9, 10, 11, 12, 13, 14, 15, 16]) =
        ⟨[1, 2, 3, 4, 5, 6, 7, 8, 9, 10, 11, 12, 13, 14, 15, 16], 0, 0, true⟩ :=
  ⟨by decide, by decide, by decide,
    c10_reed_solomon_roundtrip [1, 2, 3, 4, 5, 6, 7, 8, 9, 10, 11, 12, 13, 14, 15, 16]
      (by decide) (by decide) (by decide)⟩

end DialUp
